import Mathlib

/-!  A verification development for the `vscode-perforce` extension: shallow
embeddings of its URI/query codecs, spec parsers and serializers, and the
theorems established about them. -/

namespace PerforceSpec

/-- JavaScript strings are modelled as lists of unicode scalar characters. -/
abbrev Str := List Char

/-- A JavaScript value as it occurs in the `UriArguments` objects of
`src/PerforceUri.ts`: a string, a boolean, or `undefined`. -/
inductive JsVal where
  | str (s : Str)
  | bool (b : Bool)
  | undefined
deriving DecidableEq, Repr

/-- A JavaScript object used as a string-keyed mapping, in key insertion order. -/
abbrev JsObj := List (Str × JsVal)

/-- JavaScript truthiness of a `JsVal` (`!!v`). -/
def truthy : JsVal → Bool
  | .str s => !s.isEmpty
  | .bool b => b
  | .undefined => false

/-- JavaScript property assignment `o[k] = v`: overwrites in place if the key
exists, otherwise appends (insertion order preserved). -/
def objSet (o : JsObj) (k : Str) (v : JsVal) : JsObj :=
  if o.any (fun p => p.1 = k) then o.map (fun p => if p.1 = k then (k, v) else p)
  else o ++ [(k, v)]

/-- JavaScript property read `o[k]`, yielding `undefined` when absent. -/
def objGet (o : JsObj) (k : Str) : JsVal :=
  match o.find? (fun p => decide (p.1 = k)) with
  | some p => p.2
  | none => .undefined

/-- JavaScript object spread `{...base, ...extra}`. -/
def objAssign (base extra : JsObj) : JsObj :=
  extra.foldl (fun acc p => objSet acc p.1 p.2) base

/-! ### encodeURIComponent / decodeURIComponent -/

/-- The mark characters left unescaped by JavaScript `encodeURIComponent`. -/
def uriUnreservedMarks : List Char := ['-', '_', '.', '!', '~', '*', Char.ofNat 39, '(', ')']

/-- Whether `encodeURIComponent` leaves the character unescaped. -/
def isUriUnreserved (c : Char) : Bool := c.isAlphanum || uriUnreservedMarks.contains c

/-- Upper-case hex digit for a nibble. -/
def hexDigitChar (n : Nat) : Char := if n < 10 then Char.ofNat (48 + n) else Char.ofNat (55 + n)

/-- `%XX` escape of one byte. -/
def percentEncodeByte (b : Nat) : Str := ['%', hexDigitChar (b / 16), hexDigitChar (b % 16)]

/-- UTF-8 bytes of a unicode scalar value. -/
def utf8BytesOfCode (n : Nat) : List Nat :=
  if n < 128 then [n]
  else if n < 2048 then [192 + n / 64, 128 + n % 64]
  else if n < 65536 then [224 + n / 4096, 128 + n / 64 % 64, 128 + n % 64]
  else [240 + n / 262144, 128 + n / 4096 % 64, 128 + n / 64 % 64, 128 + n % 64]

/-- `encodeURIComponent` on one character: unreserved characters pass through,
all others are replaced by the `%XX` escapes of their UTF-8 bytes. -/
def encodeChar (c : Char) : Str :=
  if isUriUnreserved c then [c] else (utf8BytesOfCode c.toNat).flatMap percentEncodeByte

/-- JavaScript `encodeURIComponent`. -/
def encodeURIComponent (s : Str) : Str :=
  s.flatMap encodeChar

/-- Value of a hex digit character (either case), as in `%XX` escapes. -/
def hexVal (c : Char) : Option Nat :=
  if 48 ≤ c.toNat ∧ c.toNat ≤ 57 then some (c.toNat - 48)
  else if 65 ≤ c.toNat ∧ c.toNat ≤ 70 then some (c.toNat - 55)
  else if 97 ≤ c.toNat ∧ c.toNat ≤ 102 then some (c.toNat - 87)
  else none

/-- A UTF-8 continuation byte. -/
def isUtf8Cont (b : Nat) : Prop := 128 ≤ b ∧ b ≤ 191

instance (b : Nat) : Decidable (isUtf8Cont b) := by unfold isUtf8Cont; infer_instance

/-- Reads one `%XX` escape from the front of the string, yielding the byte
value and the remainder. -/
def readEscByte : Str → Option (Nat × Str)
  | '%' :: h1 :: h2 :: rest =>
    match hexVal h1, hexVal h2 with
    | some v1, some v2 => some (16 * v1 + v2, rest)
    | _, _ => none
  | _ => none

/-- Decodes one escape sequence (1 to 4 `%XX` escapes forming a UTF-8
character) from the front of the string.  Malformed, overlong, surrogate or
out-of-range sequences are rejected (a `URIError` in JavaScript). -/
def decodeEscape (s : Str) : Option (Char × Str) :=
  match readEscByte s with
  | none => none
  | some (b, r1) =>
    if b < 128 then some (Char.ofNat b, r1)
    else if 194 ≤ b ∧ b ≤ 223 then
      match readEscByte r1 with
      | some (b2, r2) =>
        if isUtf8Cont b2 then some (Char.ofNat ((b - 192) * 64 + (b2 - 128)), r2) else none
      | none => none
    else if 224 ≤ b ∧ b ≤ 239 then
      match readEscByte r1 with
      | some (b2, r2) =>
        match readEscByte r2 with
        | some (b3, r3) =>
          if isUtf8Cont b2 ∧ isUtf8Cont b3 ∧ 2048 ≤ (b - 224) * 4096 + (b2 - 128) * 64 + (b3 - 128)
              ∧ ((b - 224) * 4096 + (b2 - 128) * 64 + (b3 - 128) < 55296
                 ∨ 57343 < (b - 224) * 4096 + (b2 - 128) * 64 + (b3 - 128)) then
            some (Char.ofNat ((b - 224) * 4096 + (b2 - 128) * 64 + (b3 - 128)), r3)
          else none
        | none => none
      | none => none
    else if 240 ≤ b ∧ b ≤ 244 then
      match readEscByte r1 with
      | some (b2, r2) =>
        match readEscByte r2 with
        | some (b3, r3) =>
          match readEscByte r3 with
          | some (b4, r4) =>
            if isUtf8Cont b2 ∧ isUtf8Cont b3 ∧ isUtf8Cont b4
                ∧ 65536 ≤ (b - 240) * 262144 + (b2 - 128) * 4096 + (b3 - 128) * 64 + (b4 - 128)
                ∧ (b - 240) * 262144 + (b2 - 128) * 4096 + (b3 - 128) * 64 + (b4 - 128)
                  ≤ 1114111 then
              some (Char.ofNat ((b - 240) * 262144 + (b2 - 128) * 4096 + (b3 - 128) * 64
                + (b4 - 128)), r4)
            else none
          | none => none
        | none => none
      | none => none
    else none

/-- The recursion of `decodeURIComponent`, made structural on a fuel
parameter (one unit of fuel is ample for one consumed character, and
`decodeEscape` always consumes at least three). -/
def decodeFuel : Nat → Str → Option Str
  | _, [] => some []
  | 0, _ :: _ => none
  | f + 1, c :: rest =>
    if c = '%' then
      match decodeEscape (c :: rest) with
      | some (ch, r) => (decodeFuel f r).map (fun t => ch :: t)
      | none => none
    else (decodeFuel f rest).map (fun t => c :: t)

/-- JavaScript `decodeURIComponent`: `%XX` escape sequences are decoded as
UTF-8 (rejecting invalid sequences with a `URIError`, modelled as `none`);
other characters pass through. -/
def decodeURIComponent (s : Str) : Option Str :=
  decodeFuel s.length s

/-! ### The query-string codec of src/PerforceUri.ts -/

/-- `encodeParam` from `src/PerforceUri.ts`: a string value yields
`key=value` (both percent-encoded); `undefined` or a truthy value yields the
bare encoded key; any other (falsy non-string) value yields `undefined`,
modelled as `none`. -/
def encodeParam (param : Str) (value : JsVal) : Option Str :=
  match value with
  | .str s => some (encodeURIComponent param ++ ['='] ++ encodeURIComponent s)
  | .undefined => some (encodeURIComponent param)
  | .bool b => if b then some (encodeURIComponent param) else none

/-- The filter `(arg) => !!arg[1]` over object entries in `encodeQuery`. -/
def truthyEntry (p : Str × JsVal) : Bool := truthy p.2

/-- The map `(arg) => encodeParam(arg[0], arg[1])` in `encodeQuery`. -/
def encodeEntry (p : Str × JsVal) : Option Str := encodeParam p.1 p.2

/-- The filter `(arg) => !!arg` over encoded segments in `encodeQuery`. -/
def notEmptyStr (s : Str) : Bool := !s.isEmpty

/-- `encodeQuery` from `src/PerforceUri.ts`: drop falsy values, encode each
remaining entry, drop empty (or `undefined`) encodings, and join with `&`. -/
def encodeQuery (args : JsObj) : Str :=
  List.intercalate ['&'] (((args.filter truthyEntry).filterMap encodeEntry).filter notEmptyStr)

/-- One step of the `forEach` loop in `decodeUriQuery`: split the segment at
`=`, decode the name, and bind it to the decoded value — or to boolean `true`
when there is no (or an empty) value part. -/
def decodeQueryStep (allArgs : JsObj) (arg : Str) : Option JsObj :=
  let parts := arg.splitOn '='
  (decodeURIComponent (parts.headD [])).bind (fun name =>
    match parts[1]? with
    | some p1 =>
      if p1.isEmpty then some (objSet allArgs name (.bool true))
      else (decodeURIComponent p1).map (fun v => objSet allArgs name (.str v))
    | none => some (objSet allArgs name (.bool true)))

/-- `decodeUriQuery` from `src/PerforceUri.ts`.  A `URIError` escaping from
`decodeURIComponent` is modelled as `none`. -/
def decodeUriQuery (query : Str) : Option JsObj :=
  (query.splitOn '&').foldlM decodeQueryStep []

/-- The query segment that `encodeQuery` produces for one kept entry. -/
def segOf (p : Str × JsVal) : Str :=
  match p.2 with
  | .str s => encodeURIComponent p.1 ++ ['='] ++ encodeURIComponent s
  | _ => encodeURIComponent p.1

/-- An entry of an argument object survives the round trip precisely when its
value is truthy and its encoded segment is non-empty. -/
def keepArg (p : Str × JsVal) : Bool :=
  truthy p.2 && !(p.1.isEmpty && decide (p.2 = JsVal.bool true))

/-! ### The vscode.Uri host model -/

/-- A `vscode.Uri`: five percent-decoded string components. -/
structure Uri where
  scheme : Str
  authority : Str
  path : Str
  query : Str
  fragment : Str
deriving DecidableEq, Repr

/-- `decodeURIComponent` made total in the style of vscode-uri graceful
percent decoding: a string that fails to decode is kept verbatim.  (vscode-uri
decodes maximal `%XX` runs individually; the two agree on strings that decode
and on strings containing no `%`, which is all this development relies on.) -/
def percentDecodeVS (s : Str) : Str :=
  (decodeURIComponent s).getD s

/-- A character that may appear in the scheme part of the parsing regex
`^(([^:/?#]+?):)?(\/\/([^/?#]*))?([^?#]*)(\?([^#]*))?(#(.*))?`. -/
def schemeChar (c : Char) : Bool := !(c = ':' || c = '/' || c = '?' || c = '#')

/-- A character that may appear in the authority part. -/
def authChar (c : Char) : Bool := !(c = '/' || c = '?' || c = '#')

/-- A character that may appear in the path part. -/
def pathChar (c : Char) : Bool := !(c = '?' || c = '#')

/-- The schemes for which vscode-uri normalises an empty or relative path. -/
def specialScheme (s : Str) : Bool :=
  s = ('h' :: 't' :: 't' :: 'p' :: 's' :: []) || s = ('h' :: 't' :: 't' :: 'p' :: [])
    || s = ('f' :: 'i' :: 'l' :: 'e' :: [])

/-- vscode-uri `_referenceResolution`: for http(s)/file URIs an empty path
becomes `/` and a relative path gains a leading slash. -/
def referenceResolution (scheme path : Str) : Str :=
  if specialScheme scheme then
    match path with
    | [] => ['/']
    | '/' :: _ => path
    | _ => '/' :: path
  else path

/-- The scheme group `(([^:/?#]+?):)?` of the parsing regex: the chars before
the first `:`/`/`/`?`/`#`, provided the stop is a `:` and the prefix is
non-empty; otherwise no scheme and nothing consumed. -/
def parseScheme (s : Str) : Str × Str :=
  let cand := s.takeWhile schemeChar
  let rest := s.dropWhile schemeChar
  if rest.head? = some ':' ∧ cand ≠ [] then (cand, rest.tail) else ([], s)

/-- The authority group `(\/\/([^/?#]*))?` of the parsing regex. -/
def parseAuthority (r : Str) : Str × Str :=
  if r.take 2 = ['/', '/'] then ((r.drop 2).takeWhile authChar, (r.drop 2).dropWhile authChar)
  else ([], r)

/-- The query and fragment groups `(\?([^#]*))?(#(.*))?` of the parsing
regex, applied to what follows the path. -/
def parseQueryFrag (r : Str) : Str × Str :=
  match r with
  | '?' :: t =>
    (t.takeWhile (fun c => !(c = '#')),
      match t.dropWhile (fun c => !(c = '#')) with
      | '#' :: t2 => t2
      | _ => [])
  | '#' :: t => ([], t)
  | _ => ([], [])

/-- `vscode.Uri.parse` (non-strict): the URI regex over the five components,
percent-decoding authority, path, query and fragment; an absent scheme becomes
`file`. -/
def uriParse (s : Str) : Uri :=
  let p1 := parseScheme s
  let scheme := if p1.1 = [] then ('f' :: 'i' :: 'l' :: 'e' :: []) else p1.1
  let p2 := parseAuthority p1.2
  let path := p2.2.takeWhile pathChar
  let r4 := p2.2.dropWhile pathChar
  let p3 := parseQueryFrag r4
  ⟨scheme, percentDecodeVS p2.1, referenceResolution scheme (percentDecodeVS path),
    percentDecodeVS p3.1, percentDecodeVS p3.2⟩

/-- `uri.with({query: q})`. -/
def uriWithQueryC (u : Uri) (q : Str) : Uri := ⟨u.scheme, u.authority, u.path, q, u.fragment⟩

/-- `uri.with({scheme: s, query: q})`. -/
def uriWithSchemeQuery (u : Uri) (sch q : Str) : Uri := ⟨sch, u.authority, u.path, q, u.fragment⟩

/-- `uri.with({fragment: f})`. -/
def uriWithFragmentC (u : Uri) (f : Str) : Uri := ⟨u.scheme, u.authority, u.path, u.query, f⟩

/-- `uri.with({path: p})`. -/
def uriWithPathC (u : Uri) (p : Str) : Uri := ⟨u.scheme, u.authority, p, u.query, u.fragment⟩

/-- `uri.fsPath` on a posix host (no backslash conversion): UNC form for
`file` URIs with an authority, lower-cased drive letters, otherwise the path. -/
def uriFsPath (u : Uri) : Str :=
  if u.authority ≠ [] ∧ 1 < u.path.length ∧ u.scheme = ('f' :: 'i' :: 'l' :: 'e' :: []) then
    '/' :: '/' :: u.authority ++ u.path
  else
    match u.path with
    | '/' :: l :: ':' :: rest => if l.isAlpha then l.toLower :: ':' :: rest else u.path
    | _ => u.path

/-- `vscode.Uri.file` on a posix host: scheme `file`, no authority, and a
leading slash added to relative paths. -/
def uriFile (path : Str) : Uri :=
  ⟨'f' :: 'i' :: 'l' :: 'e' :: [], [],
    (match path with
     | '/' :: _ => path
     | _ => '/' :: path), [], []⟩

/-! ### src/PerforceUri.ts -/

/-- `getRevOrAtLabel` from `src/PerforceUri.ts`. -/
def getRevOrAtLabel (u : Uri) : Str := u.fragment

/-- `withoutRev` from `src/PerforceUri.ts`: the suffix-stripping behaviour is
commented out in the source, so the path is returned unchanged. -/
def withoutRev (path : Str) (_revOrAtLabel : Str) : Str := path

/-- `uriWithoutRev` from `src/PerforceUri.ts`. -/
def uriWithoutRev (u : Uri) : Uri := uriWithPathC u (withoutRev u.path (getRevOrAtLabel u))

/-- `uriWithRev` from `src/PerforceUri.ts`: sets the fragment; an `undefined`
revision leaves the fragment unchanged (`uri.with` keeps components passed as
`undefined`). -/
def uriWithRev (u : Uri) (revOrAtLabel : Option Str) : Uri :=
  match revOrAtLabel with
  | some r => uriWithFragmentC u r
  | none => u

/-- `fsPathWithoutRev` from `src/PerforceUri.ts`. -/
def fsPathWithoutRev (u : Uri) : Str := uriFsPath (uriWithoutRev u)

/-- `getDepotPathFromDepotUri` from `src/PerforceUri.ts`:
`"//" + (args.depotName ?? uri.authority) + uriWithoutRev(uri).path`.
`none` models a `URIError` escaping from `decodeUriQuery`.  A non-string
`depotName` value is coerced to a string as JavaScript `+` does. -/
def getDepotPathFromDepotUri (u : Uri) : Option Str :=
  (decodeUriQuery u.query).map (fun args =>
    '/' :: '/' ::
      (match objGet args ('d' :: 'e' :: 'p' :: 'o' :: 't' :: 'N' :: 'a' :: 'm' :: 'e' :: []) with
       | .str s => s
       | .bool b => if b then ('t' :: 'r' :: 'u' :: 'e' :: []) else ('f' :: 'a' :: 'l' :: 's' :: 'e' :: [])
       | .undefined => u.authority) ++ (uriWithoutRev u).path)

/-- `hasTruthyArg` from `src/PerforceUri.ts`. -/
def hasTruthyArg (u : Uri) (arg : Str) : Option Bool :=
  (decodeUriQuery u.query).map (fun args => truthy (objGet args arg))

/-- `isDepotUri` from `src/PerforceUri.ts`. -/
def isDepotUri (u : Uri) : Option Bool := hasTruthyArg u ('d' :: 'e' :: 'p' :: 'o' :: 't' :: [])

/-- `getWorkspaceFromQuery` from `src/PerforceUri.ts`.  The outer `Option`
models a thrown error (decoding failure, or `vscode.Uri.file` applied to the
boolean `true`); the inner one models `undefined`. -/
def getWorkspaceFromQuery (u : Uri) : Option (Option Uri) :=
  match decodeUriQuery u.query with
  | none => none
  | some args =>
    match objGet args ('w' :: 'o' :: 'r' :: 'k' :: 's' :: 'p' :: 'a' :: 'c' :: 'e' :: []) with
    | .str s => if s.isEmpty then some none else some (some (uriFile s))
    | .bool b => if b then none else some none
    | .undefined => some none

/-- `getUsableWorkspace` from `src/PerforceUri.ts`. -/
def getUsableWorkspace (u : Uri) : Option (Option Uri) :=
  match isDepotUri u with
  | none => none
  | some dep =>
    if !dep ∧ uriFsPath u ≠ [] then some (some (uriFile (fsPathWithoutRev u)))
    else getWorkspaceFromQuery u

/-- The `defaultArgs` of `fromUri` in `src/PerforceUri.ts`. -/
def defaultArgs : JsObj :=
  [(('c' :: 'o' :: 'm' :: 'm' :: 'a' :: 'n' :: 'd' :: []),
     .str ('p' :: 'r' :: 'i' :: 'n' :: 't' :: [])),
   (('p' :: '4' :: 'A' :: 'r' :: 'g' :: 's' :: []), .str ('-' :: 'q' :: []))]

/-- `fromUri` from `src/PerforceUri.ts`. -/
def fromUri (u : Uri) (otherArgs : JsObj) : Option Uri :=
  (decodeUriQuery u.query).map (fun existing =>
    uriWithSchemeQuery u ('p' :: 'e' :: 'r' :: 'f' :: 'o' :: 'r' :: 'c' :: 'e' :: [])
      (encodeQuery (objAssign (objAssign defaultArgs existing) otherArgs)))

/-- `fromDepotPath` from `src/PerforceUri.ts`. -/
def fromDepotPath (workspace : Uri) (depotPath : Str) (revisionOrAtLabel : Option Str) :
    Option Uri :=
  let baseUri := uriWithRev
    (uriParse (('p' :: 'e' :: 'r' :: 'f' :: 'o' :: 'r' :: 'c' :: 'e' :: ':' :: []) ++ depotPath))
    revisionOrAtLabel
  let depotName := (depotPath.splitOn '/')[2]?
  match getUsableWorkspace workspace with
  | none => none
  | some usable =>
    fromUri baseUri
      [(('d' :: 'e' :: 'p' :: 'o' :: 't' :: []), .bool true),
       (('w' :: 'o' :: 'r' :: 'k' :: 's' :: 'p' :: 'a' :: 'c' :: 'e' :: []),
         .str (uriFsPath (usable.getD workspace))),
       (('d' :: 'e' :: 'p' :: 'o' :: 't' :: 'N' :: 'a' :: 'm' :: 'e' :: []),
         match depotName with | some d => .str d | none => .undefined),
       (('r' :: 'e' :: 'v' :: []),
         match revisionOrAtLabel with | some r => .str r | none => .undefined)]

/-- `withArgs` from `src/PerforceUri.ts`: merge the supplied arguments over
the current query arguments; replace the revision fragment only when an
explicit revision argument is supplied. -/
def withArgs (u : Uri) (args : JsObj) (revisionOrAtLabel : Option Str) : Option Uri :=
  (decodeUriQuery u.query).map (fun curArgs =>
    match revisionOrAtLabel with
    | some r =>
      uriWithRev
        (uriWithQueryC (uriWithoutRev u)
          (encodeQuery (objSet (objAssign curArgs args) ('r' :: 'e' :: 'v' :: []) (.str r))))
        (some r)
    | none => uriWithQueryC u (encodeQuery (objAssign curArgs args)))

/-! ### CommandUtils helpers (not present under src/), modelled from the spec -/

/-- Modelled from the spec: `splitIntoLines` of the missing `CommandUtils`
module — split raw output on line breaks (a line break is modelled as a
single `\n`). -/
def splitIntoLines (s : Str) : List Str := s.splitOn '\n'

/-- Modelled from the spec: `splitIntoSections` of the missing `CommandUtils`
module — "split the text into sections using blank-line boundaries": the
line list is split on empty lines and each group is rejoined. -/
def splitIntoSections (s : Str) : List Str :=
  ((s.splitOn '\n').splitOn []).map (List.intercalate ['\n'])

/-- Modelled from the spec: `removeLeadingNewline` of the missing
`CommandUtils` module — drop one leading line break. -/
def removeLeadingNewline (s : Str) : Str :=
  match s with
  | '\n' :: t => t
  | _ => s

/-- One leading tab removed from a line. -/
def stripOneTab (l : Str) : Str :=
  match l with
  | '\t' :: t => t
  | _ => l

/-- Modelled from the spec: `removeIndent` of the missing `CommandUtils`
module — "tab-indentation is stripped per line while preserving relative
structure": one leading tab removed from each line. -/
def removeIndent (lines : List Str) : List Str :=
  lines.map stripOneTab

/-- One step of `sectionArrayBy`. -/
def sectionStep (p : Str → Bool) (acc : List (List Str) × Option (List Str)) (line : Str) :
    List (List Str) × Option (List Str) :=
  if p line then
    match acc.2 with
    | some cur => (acc.1 ++ [cur], some [line])
    | none => (acc.1, some [line])
  else
    match acc.2 with
    | some cur => (acc.1, some (cur ++ [line]))
    | none => (acc.1, none)

/-- Modelled from the spec: `sectionArrayBy` of the missing `CommandUtils`
module — "split the text into sections using a section boundary predicate
(a line starting with a known keyword)": every line satisfying the predicate
starts a new section; lines before the first boundary belong to no section. -/
def sectionArrayBy (lines : List Str) (p : Str → Bool) : List (List Str) :=
  let r := lines.foldl (sectionStep p) ([], none)
  match r.2 with
  | some cur => r.1 ++ [cur]
  | none => r.1

/-- Modelled from the spec: `mergeAll` of the missing `CommandUtils` module —
"accumulate fields into one merged record per block", i.e. `Object.assign`
over the base record and each field record. -/
def mergeAll (base : JsObj) (objs : List JsObj) : JsObj :=
  objs.foldl objAssign base

/-- The chunk size used when batching file lists. -/
def chunkSize : Nat := 32

/-- The recursion of `splitIntoChunks`, structural on a fuel parameter. -/
def chunksFuel {α : Type} : Nat → List α → List (List α)
  | _, [] => []
  | 0, l => [l]
  | f + 1, l => l.take chunkSize :: chunksFuel f (l.drop chunkSize)

/-- Modelled from the spec: `splitIntoChunks` of the missing `CommandUtils`
module — batch a file list "into server-acceptable chunk sizes". -/
def splitIntoChunks {α : Type} (l : List α) : List (List α) := chunksFuel l.length l

/-! ### src/TsUtils.ts : parseDate and the JavaScript Date model -/

/-- A JavaScript `Date` as produced by the 6-argument constructor: either the
invalid date, or the constructed components.  (Calendar normalisation of
out-of-range components is not modelled; the parsed components stay in
range.) -/
inductive JsDate where
  | invalid
  | date (year monthIndex day hours minutes seconds : Int)
deriving DecidableEq, Repr

/-- `new Date(y, mo, d, h, mi, s)` where the last three arguments are passed
explicitly but may be `undefined`: per ECMAScript, a present-but-`undefined`
component coerces to NaN, making the whole date invalid. -/
def jsNewDate (y mo d : Int) (h mi s : Option Int) : JsDate :=
  match h, mi, s with
  | some hv, some miv, some sv => .date y mo d hv miv sv
  | _, _, _ => .invalid

/-- The whitespace class of JavaScript (`\s`, `trim`), restricted to the
common characters. -/
def isJsSpace (c : Char) : Bool :=
  c = ' ' || c = '\t' || c = '\n' || c = '\r' || c = Char.ofNat 11 || c = Char.ofNat 12
    || c = Char.ofNat 160

/-- JavaScript `String.prototype.trim`. -/
def jsTrim (s : Str) : Str :=
  ((s.dropWhile isJsSpace).reverse.dropWhile isJsSpace).reverse

/-- JavaScript `parseInt` on an all-digit decimal string. -/
def parseIntDec (s : Str) : Int :=
  Int.ofNat (s.foldl (fun acc c => acc * 10 + (c.toNat - 48)) 0)

/-- The optional time group `(?: (\d{2}):(\d{2}):(\d{2}))?` of the date
regex in `parseDate`. -/
def matchTimeGroup (s : Str) : Option (Str × Str × Str) :=
  match s with
  | ' ' :: h1 :: h2 :: ':' :: m1 :: m2 :: ':' :: s1 :: s2 :: _ =>
    if h1.isDigit && h2.isDigit && m1.isDigit && m2.isDigit && s1.isDigit && s2.isDigit then
      some ([h1, h2], [m1, m2], [s1, s2])
    else none
  | _ => none

/-- The date regex `(\d{4})\/(\d{2})\/(\d{2})(?: (\d{2}):(\d{2}):(\d{2}))?`
of `parseDate`, matched at the start of the string. -/
def matchDateAt (s : Str) : Option (Str × Str × Str × Option (Str × Str × Str)) :=
  match s with
  | y1 :: y2 :: y3 :: y4 :: '/' :: m1 :: m2 :: '/' :: d1 :: d2 :: rest =>
    if y1.isDigit && y2.isDigit && y3.isDigit && y4.isDigit && m1.isDigit && m2.isDigit
        && d1.isDigit && d2.isDigit then
      some ([y1, y2, y3, y4], [m1, m2], [d1, d2], matchTimeGroup rest)
    else none
  | _ => none

/-- Unanchored leftmost search for the date regex. -/
def execDateRegex (s : Str) : Option (Str × Str × Str × Option (Str × Str × Str)) :=
  (List.range (s.length + 1)).findSome? (fun i => matchDateAt (s.drop i))

/-- `parseDate` from `src/TsUtils.ts`: matches the date regex against the
trimmed input; the hour/minute/second arguments of the `Date` constructor are
`undefined` when the time group is absent. -/
def parseDate (dateString : Str) : Option JsDate :=
  match execDateRegex (jsTrim dateString) with
  | none => none
  | some (y, mo, d, t) =>
    some (jsNewDate (parseIntDec y) (parseIntDec mo - 1) (parseIntDec d)
      (t.map (fun x => parseIntDec x.1)) (t.map (fun x => parseIntDec x.2.1))
      (t.map (fun x => parseIntDec x.2.2)))

/-! ### src/api/commands/changes.ts : the changes parser -/

/-- The character class of `.` in a JavaScript regex (anything but a line
terminator). -/
def isDotChar (c : Char) : Bool :=
  !(c = '\n' || c = '\r' || c = Char.ofNat 8232 || c = Char.ofNat 8233)

/-- `ChangeInfo` of `src/api/CommonTypes.ts` (`date` and `isPending` are
optional in the source; the changes parser always populates them). -/
structure ChangeInfo where
  chnum : Str
  description : List Str
  date : Option JsDate
  user : Str
  client : Str
  isPending : Bool
deriving DecidableEq, Repr

/-- The captures of the changelist header regex
`Change\s(\d+)\son\s(.+)\sby\s(.+)@(\S+)(?:\s\*(.+)\*)?`. -/
structure HeaderCaptures where
  chnum : Str
  date : Str
  user : Str
  client : Str
  status : Option Str
deriving DecidableEq, Repr

/-- The optional status suffix `(?:\s\*(.+)\*)?` after the client capture:
a whitespace, a literal `*`, a greedy non-empty capture, then a literal `*`.
The capture extends to the last `*` reachable through `.`-characters. -/
def matchStatusGroup (rest : Str) : Option Str :=
  match rest with
  | w :: '*' :: v =>
    if isJsSpace w then
      (List.range v.length).reverse.findSome? (fun m =>
        match v.drop m with
        | '*' :: _ =>
          if 1 ≤ m ∧ (v.take m).all isDotChar then some (v.take m) else none
        | _ => none)
    else none
  | _ => none

/-- The part `(\S+)(?:\s\*(.+)\*)?` after the `@`: the client is the maximal
non-empty run of non-space characters (nothing after the optional group ever
forces it to backtrack). -/
def matchClientAt (after : Str) : Option (Str × Option Str) :=
  let client := after.takeWhile (fun c => !isJsSpace c)
  if client = [] then none
  else some (client, matchStatusGroup (after.dropWhile (fun c => !isJsSpace c)))

/-- The part `(.+)@(\S+)(?:\s\*(.+)\*)?`: the user capture is greedy, so the
split is at the last `@` that leaves a non-empty `.`-only user capture and a
matching remainder. -/
def matchUserAt (t : Str) : Option (Str × Str × Option Str) :=
  (List.range t.length).reverse.findSome? (fun k =>
    match t.drop k with
    | '@' :: after =>
      if 1 ≤ k ∧ (t.take k).all isDotChar then
        (matchClientAt after).map (fun p => (t.take k, p.1, p.2))
      else none
    | _ => none)

/-- The part `(.+)\sby\s...`: the date capture is greedy, so the split is at
the last ` by ` that leaves a non-empty `.`-only date capture and a matching
remainder. -/
def matchDateByAt (t : Str) : Option (Str × Str × Str × Option Str) :=
  (List.range t.length).reverse.findSome? (fun j =>
    match t.drop j with
    | w1 :: 'b' :: 'y' :: w2 :: tail =>
      if isJsSpace w1 && isJsSpace w2 && decide (1 ≤ j) && (t.take j).all isDotChar then
        (matchUserAt tail).map (fun p => (t.take j, p.1, p.2.1, p.2.2))
      else none
    | _ => none)

/-- The changelist header regex matched at the start of the string:
`Change`, one whitespace, the greedy digit capture (digits cannot be
whitespace, so no backtracking), one whitespace, `on`, one whitespace, then
the greedy tail. -/
def matchHeaderAt (s : Str) : Option HeaderCaptures :=
  match s with
  | 'C' :: 'h' :: 'a' :: 'n' :: 'g' :: 'e' :: w1 :: t1 =>
    if isJsSpace w1 then
      let digits := t1.takeWhile Char.isDigit
      if digits = [] then none
      else
        match t1.dropWhile Char.isDigit with
        | w2 :: 'o' :: 'n' :: w3 :: t2 =>
          if isJsSpace w2 && isJsSpace w3 then
            (matchDateByAt t2).map (fun p => ⟨digits, p.1, p.2.1, p.2.2.1, p.2.2.2⟩)
          else none
        | _ => none
    else none
  | _ => none

/-- Unanchored leftmost application of the changelist header regex. -/
def execChangeHeader (s : Str) : Option HeaderCaptures :=
  (List.range (s.length + 1)).findSome? (fun i => matchHeaderAt (s.drop i))

/-- The header part of a parsed changelist (`parseChangelistHeader` without
the description, as in the source). -/
structure ChangeHeader where
  chnum : Str
  date : Option JsDate
  user : Str
  client : Str
  isPending : Bool
deriving DecidableEq, Repr

/-- `parseChangelistHeader` from `src/api/commands/changes.ts`. -/
def parseChangelistHeader (value : Str) : Option ChangeHeader :=
  (execChangeHeader value).map (fun m =>
    ⟨m.chnum, parseDate m.date, m.user, m.client,
      decide (m.status = some ('p' :: 'e' :: 'n' :: 'd' :: 'i' :: 'n' :: 'g' :: []))⟩)

/-- `parseChangelist` from `src/api/commands/changes.ts`: the first line is
the header; the tab-indented following lines form the description.  A section
whose header fails the regex contributes nothing. -/
def parseChangelist (lines : List Str) : Option ChangeInfo :=
  match lines with
  | [] => none
  | header :: descLines =>
    match parseChangelistHeader header with
    | none => none
    | some h =>
      some ⟨h.chnum, removeIndent (descLines.filter (fun l => ('\t' :: []).isPrefixOf l)),
        h.date, h.user, h.client, h.isPending⟩

/-- `parseChangesOutput` from `src/api/commands/changes.ts`: sections start
at lines beginning with `Change`; unparsable sections are dropped. -/
def parseChangesOutput (output : Str) : List ChangeInfo :=
  ((sectionArrayBy (splitIntoLines output)
      (fun line => ('C' :: 'h' :: 'a' :: 'n' :: 'g' :: 'e' :: []).isPrefixOf line)).map
    parseChangelist).filterMap id

/-! ### src/api/commands/changes.ts : the fstat parser -/

/-- The `\w` character class of JavaScript regexes. -/
def isWordChar (c : Char) : Bool := c.isAlphanum || c = '_'

/-- The z-tag field regex `[.]{3} (\w+)[ ]*(.+)?` matched at the start of the
string: three dots, a space, the field name, optional spaces, and an optional
value capture. -/
def matchZTagAt (s : Str) : Option (Str × Str) :=
  match s with
  | '.' :: '.' :: '.' :: ' ' :: t =>
    let w := t.takeWhile isWordChar
    if w = [] then none
    else
      let v := ((t.dropWhile isWordChar).dropWhile (fun c => c = ' ')).takeWhile isDotChar
      some (w, if v = [] then ('t' :: 'r' :: 'u' :: 'e' :: []) else v)
  | _ => none

/-- `parseZTagField` from `src/api/commands/changes.ts`: the single-entry
record `{matches[1]: matches[2] or "true"}`, or nothing when the regex does
not match anywhere in the line. -/
def parseZTagField (field : Str) : Option (Str × Str) :=
  (List.range (field.length + 1)).findSome? (fun i => matchZTagAt (field.drop i))

/-- `parseZTagBlock` from `src/api/commands/changes.ts`. -/
def parseZTagBlock (block : Str) : List (Str × Str) :=
  (splitIntoLines block).filterMap parseZTagField

/-- The key `depotFile`. -/
def depotFileKey : Str := 'd' :: 'e' :: 'p' :: 'o' :: 't' :: 'F' :: 'i' :: 'l' :: 'e' :: []

/-- `parseFstatSection` from `src/api/commands/changes.ts`: all fields of a
block merged over the default `{depotFile: ""}`. -/
def parseFstatSection (file : Str) : JsObj :=
  mergeAll [(depotFileKey, JsVal.str [])]
    ((parseZTagBlock file).map (fun p => [(p.1, JsVal.str p.2)]))

/-- `parseFstatOutput` from `src/api/commands/changes.ts`. -/
def parseFstatOutput (fstatOutput : Str) : List JsObj :=
  (splitIntoSections (jsTrim fstatOutput)).map parseFstatSection

/-- `getFstatInfo` from `src/api/commands/changes.ts`, with the external
executor (`fstatBasic` composed with `Promise.all`) abstracted as a function
from one chunk of depot paths to its raw output. -/
def getFstatInfo (exec : List Str → Str) (depotPaths : List Str) : List JsObj :=
  ((splitIntoChunks depotPaths).map exec).flatMap parseFstatOutput

/-- `getFstatInfoMapped` from `src/api/commands/changes.ts`: each requested
path is answered by the first parsed record whose `depotFile` field equals
it. -/
def getFstatInfoMapped (exec : List Str → Str) (depotPaths : List Str) : List (Option JsObj) :=
  depotPaths.map (fun file =>
    (getFstatInfo exec depotPaths).find? (fun fs =>
      decide (objGet fs depotFileKey = JsVal.str file)))

/-! ### src/SpecParser.ts and src/api/commands/changeSpec.ts -/

/-- `RawField` of `src/api/CommonTypes.ts`. -/
structure RawField where
  name : Str
  value : List Str
deriving DecidableEq, Repr

/-- JavaScript `String.prototype.indexOf` for a single character. -/
def jsIndexOfChar (s : Str) (c : Char) : Int :=
  match s.findIdx? (fun x => x = c) with
  | some i => (i : Int)
  | none => -1

/-- JavaScript `String.prototype.slice(start)` (negative indices count from
the end). -/
def jsSliceFrom (s : Str) (start : Int) : Str :=
  if start < 0 then s.drop (s.length - min s.length (-start).toNat)
  else s.drop (min start.toNat s.length)

/-- JavaScript `String.prototype.slice(0, stop)` (negative indices count
from the end). -/
def jsSliceTo (s : Str) (stop : Int) : Str :=
  if stop < 0 then s.take (s.length - min s.length (-stop).toNat)
  else s.take (min stop.toNat s.length)

/-- `parseRawField` from the spec parser: strip one leading newline, split
into lines, strip one tab of indentation. -/
def parseRawField (s : Str) : List Str :=
  removeIndent (splitIntoLines (removeLeadingNewline s))

/-- `parseRawFields` from the spec parser: the field name is the text before
the first colon; the value is everything from two characters past it. -/
def parseRawFields (parts : List Str) : List RawField :=
  parts.map (fun field =>
    ⟨jsSliceTo field (jsIndexOfChar field ':'),
     parseRawField (jsSliceFrom field (jsIndexOfChar field ':' + 2))⟩)

/-- `getBasicField` from the spec parser. -/
def getBasicField (fields : List RawField) (field : Str) : Option (List Str) :=
  (fields.find? (fun i => decide (i.name = field))).map (fun i => i.value)

/-- `excludeNonFields` from the spec parser: drop comment and empty
sections. -/
def excludeNonFields (parts : List Str) : List Str :=
  parts.filter (fun part => !(('#' :: []).isPrefixOf part) && !part.isEmpty)

/-- `parseSpecOutput` from the spec parser. -/
def parseSpecOutput (s : Str) : List RawField :=
  parseRawFields (excludeNonFields (splitIntoSections s))

/-- `ChangeSpecFile` of `src/api/CommonTypes.ts`. -/
structure ChangeSpecFile where
  depotPath : Str
  action : Str
deriving DecidableEq, Repr

/-- `ChangeSpec` of `src/api/CommonTypes.ts`. -/
structure ChangeSpec where
  description : Option Str
  files : Option (List ChangeSpecFile)
  change : Option Str
  rawFields : List RawField
deriving DecidableEq, Repr

/-- The field name `Change`. -/
def changeKey : Str := 'C' :: 'h' :: 'a' :: 'n' :: 'g' :: 'e' :: []

/-- The field name `Description`. -/
def descriptionKey : Str :=
  'D' :: 'e' :: 's' :: 'c' :: 'r' :: 'i' :: 'p' :: 't' :: 'i' :: 'o' :: 'n' :: []

/-- The field name `Files`. -/
def filesKey : Str := 'F' :: 'i' :: 'l' :: 'e' :: 's' :: []

/-- `mapToChangeFields` from `src/api/commands/changeSpec.ts`. -/
def mapToChangeFields (rawFields : List RawField) : ChangeSpec :=
  ⟨(getBasicField rawFields descriptionKey).map (List.intercalate ['\n']),
   (getBasicField rawFields filesKey).map (fun files => files.map (fun file =>
     ⟨jsTrim (jsSliceTo file (jsIndexOfChar file '#')),
      jsSliceFrom file (jsIndexOfChar file '#' + 2)⟩)),
   (getBasicField rawFields changeKey).map (fun v => jsTrim (v.headD [])),
   rawFields⟩

/-- `parseChangeSpec` from `src/api/commands/changeSpec.ts`. -/
def parseChangeSpec (s : Str) : ChangeSpec := mapToChangeFields (parseSpecOutput s)

/-- `getChangeAsRawField` from `src/api/commands/changeSpec.ts`
(`spec.change ? ... : undefined`, so an empty change number yields nothing). -/
def getChangeAsRawField (spec : ChangeSpec) : Option RawField :=
  match spec.change with
  | some c => if c.isEmpty then none else some ⟨changeKey, [c]⟩
  | none => none

/-- `getDescriptionAsRawField` from `src/api/commands/changeSpec.ts`. -/
def getDescriptionAsRawField (spec : ChangeSpec) : Option RawField :=
  match spec.description with
  | some d => if d.isEmpty then none else some ⟨descriptionKey, splitIntoLines d⟩
  | none => none

/-- `getFilesAsRawField` from `src/api/commands/changeSpec.ts` (an array is
always truthy in JavaScript, even when empty). -/
def getFilesAsRawField (spec : ChangeSpec) : Option RawField :=
  spec.files.map (fun files =>
    ⟨filesKey, files.map (fun file => file.depotPath ++ '\t' :: '#' :: ' ' :: file.action)⟩)

/-- `getDefinedSpecFields` from `src/api/commands/changeSpec.ts`
(`concatIfOutputIsDefined` keeps the defined results in order). -/
def getDefinedSpecFields (spec : ChangeSpec) : List RawField :=
  [getChangeAsRawField spec, getDescriptionAsRawField spec,
   getFilesAsRawField spec].filterMap id

/-- JavaScript `String.prototype.toLowerCase` (ASCII). -/
def jsToLower (s : Str) : Str := s.map Char.toLower

/-- The truthiness of `spec[key]` for the own properties of a `ChangeSpec`
(`change`, `description`, `files`, `rawFields` — the last with a capital `F`,
so the all-lowercase key `rawfields` reads `undefined`); an array is truthy
even when empty, and any other key reads as `undefined`. -/
def specFieldTruthy (spec : ChangeSpec) (key : Str) : Bool :=
  if key = ('c' :: 'h' :: 'a' :: 'n' :: 'g' :: 'e' :: []) then
    match spec.change with
    | some c => !c.isEmpty
    | none => false
  else if key = ('d' :: 'e' :: 's' :: 'c' :: 'r' :: 'i' :: 'p' :: 't' :: 'i' :: 'o' :: 'n' :: []) then
    match spec.description with
    | some d => !d.isEmpty
    | none => false
  else if key = ('f' :: 'i' :: 'l' :: 'e' :: 's' :: []) then spec.files.isSome
  else if key = ('r' :: 'a' :: 'w' :: 'F' :: 'i' :: 'e' :: 'l' :: 'd' :: 's' :: []) then true
  else false

/-- One serialized spec field: `Name:\t` followed by the value lines joined
with `\n\t`. -/
def renderSpecField (field : RawField) : Str :=
  field.name ++ ':' :: '\t' :: List.intercalate ('\n' :: '\t' :: []) field.value

/-- The spec text constructed by `inputChange` in
`src/api/commands/changeSpec.ts`: the semantically-known fields, then every
raw field whose (lower-cased) name is not a truthy property of the spec
object, joined with blank lines and terminated by one. -/
def inputChangeInput (spec : ChangeSpec) : Str :=
  List.intercalate ('\n' :: '\n' :: [])
    (((getDefinedSpecFields spec).append
        (spec.rawFields.filter (fun field => !specFieldTruthy spec (jsToLower field.name)))).map
      renderSpecField) ++ '\n' :: '\n' :: []

/-! ### Claim theorems: C5 spec codec losslessness -/

/-- A well-formed spec field as written in spec text: non-empty name without
colons or line breaks, not a comment; a non-empty first value line that does
not begin with a tab (its tabs would be eaten by the indent stripping);
value lines without line breaks. -/
def wellFormedField (g : RawField) : Prop :=
  g.name ≠ [] ∧ (∀ c ∈ g.name, ¬(c = ':') ∧ ¬(c = '\n')) ∧
    ('#' :: []).isPrefixOf g.name = false ∧
    g.value.headD [] ≠ [] ∧ ('\t' :: []).isPrefixOf (g.value.headD []) = false ∧
    ∀ l ∈ g.value, '\n' ∉ l

instance (g : RawField) : Decidable (wellFormedField g) := by
  unfold wellFormedField
  infer_instance

/-- The lines of one serialized spec field. -/
def renderLines (g : RawField) : List Str :=
  (g.name ++ ':' :: '\t' :: g.value.headD []) :: g.value.tail.map (fun l => '\t' :: l)

theorem readEscByte_length {s r : Str} {b : Nat} (h : readEscByte s = some (b, r)) :
    s.length = r.length + 3 := by
  unfold readEscByte at h
  split at h
  · rename_i h1 h2 rest
    split at h
    · simp only [Option.some.injEq, Prod.mk.injEq] at h
      simp [← h.2]
    · exact absurd h (by simp)
  · exact absurd h (by simp)

theorem decodeEscape_length {s r : Str} {c : Char} (h : decodeEscape s = some (c, r)) :
    r.length + 3 ≤ s.length := by
  unfold decodeEscape at h
  split at h
  · exact absurd h (by simp)
  · rename_i b r1 heq
    have l1 := readEscByte_length heq
    split at h
    · simp only [Option.some.injEq, Prod.mk.injEq] at h
      obtain ⟨-, rfl⟩ := h
      omega
    · split at h
      · split at h
        · rename_i b2 r2 heq2
          have l2 := readEscByte_length heq2
          split at h
          · simp only [Option.some.injEq, Prod.mk.injEq] at h
            obtain ⟨-, rfl⟩ := h
            omega
          · exact absurd h (by simp)
        · exact absurd h (by simp)
      · split at h
        · split at h
          · rename_i b2 r2 heq2
            have l2 := readEscByte_length heq2
            split at h
            · rename_i b3 r3 heq3
              have l3 := readEscByte_length heq3
              split at h
              · simp only [Option.some.injEq, Prod.mk.injEq] at h
                obtain ⟨-, rfl⟩ := h
                omega
              · exact absurd h (by simp)
            · exact absurd h (by simp)
          · exact absurd h (by simp)
        · split at h
          · split at h
            · rename_i b2 r2 heq2
              have l2 := readEscByte_length heq2
              split at h
              · rename_i b3 r3 heq3
                have l3 := readEscByte_length heq3
                split at h
                · rename_i b4 r4 heq4
                  have l4 := readEscByte_length heq4
                  split at h
                  · simp only [Option.some.injEq, Prod.mk.injEq] at h
                    obtain ⟨-, rfl⟩ := h
                    omega
                  · exact absurd h (by simp)
                · exact absurd h (by simp)
              · exact absurd h (by simp)
            · exact absurd h (by simp)
          · exact absurd h (by simp)

theorem decodeFuel_eq : ∀ (f : Nat) {g : Nat} {s : Str}, s.length ≤ f → s.length ≤ g →
    decodeFuel f s = decodeFuel g s := by
  intro f
  induction f with
  | zero =>
    intro g s hf _
    rw [List.length_eq_zero.mp (Nat.le_zero.mp hf)]
    cases g <;> rfl
  | succ f ih =>
    intro g s hf hg
    cases s with
    | nil => cases g <;> rfl
    | cons c rest =>
      rw [List.length_cons] at hf hg
      cases g with
      | zero => omega
      | succ g =>
        rw [decodeFuel, decodeFuel]
        by_cases hc : c = '%'
        · rw [if_pos hc, if_pos hc]
          cases hd : decodeEscape (c :: rest) with
          | none => rfl
          | some p =>
            obtain ⟨ch, r⟩ := p
            have hl := decodeEscape_length hd
            rw [List.length_cons] at hl
            have hr := ih (g := g) (s := r) (by omega) (by omega)
            simp only [hr]
        · have hr := ih (g := g) (s := rest) (by omega) (by omega)
          rw [if_neg hc, if_neg hc, hr]

/-! ### Round-trip of the percent codec -/

theorem hexVal_hexDigitChar : ∀ x : Nat, x < 16 → hexVal (hexDigitChar x) = some x := by
  decide

theorem isUriUnreserved_ne_percent {c : Char} (h : isUriUnreserved c = true) : ¬ c = '%' := by
  intro he
  subst he
  simp [isUriUnreserved, uriUnreservedMarks] at h

theorem decodeURIComponent_cons_of_ne {c : Char} (hc : ¬ c = '%') (E : Str) :
    decodeURIComponent (c :: E) = (decodeURIComponent E).map (fun t => c :: t) := by
  rw [decodeURIComponent, decodeURIComponent, List.length_cons, decodeFuel, if_neg hc]

theorem readEscByte_shape {s r : Str} {b : Nat} (h : readEscByte s = some (b, r)) :
    ∃ a1 a2, s = '%' :: a1 :: a2 :: r := by
  unfold readEscByte at h
  split at h
  · rename_i h1 h2 rest
    split at h
    · simp only [Option.some.injEq, Prod.mk.injEq] at h
      exact ⟨h1, h2, by rw [h.2]⟩
    · exact absurd h (by simp)
  · exact absurd h (by simp)

theorem decodeEscape_read {s : Str} {p : Char × Str} (h : decodeEscape s = some p) :
    ∃ q, readEscByte s = some q := by
  cases hr : readEscByte s with
  | some q => exact ⟨q, rfl⟩
  | none =>
    unfold decodeEscape at h
    rw [hr] at h
    exact absurd h (by simp)

theorem decodeURIComponent_of_decodeEscape {s r : Str} {ch : Char}
    (h : decodeEscape s = some (ch, r)) :
    decodeURIComponent s = (decodeURIComponent r).map (fun t => ch :: t) := by
  obtain ⟨⟨b, r1⟩, hread⟩ := decodeEscape_read h
  obtain ⟨a1, a2, hs⟩ := readEscByte_shape hread
  have hl := decodeEscape_length h
  subst hs
  simp only [List.length_cons] at hl
  rw [decodeURIComponent, decodeURIComponent, List.length_cons, decodeFuel, if_pos rfl, h]
  have hfe := decodeFuel_eq ((a1 :: a2 :: r1).length) (g := List.length r) (s := r)
    (by simp only [List.length_cons]; omega) (by omega)
  simp only [hfe]

theorem readEscByte_pct (b : Nat) (hb : b < 256) (tail : Str) :
    readEscByte (percentEncodeByte b ++ tail) = some (b, tail) := by
  simp only [percentEncodeByte, List.cons_append, List.nil_append]
  rw [readEscByte, hexVal_hexDigitChar _ (by omega), hexVal_hexDigitChar _ (by omega)]
  simp only [Option.some.injEq, Prod.mk.injEq, and_true]
  omega

theorem char_valid_nat (c : Char) :
    c.toNat < 55296 ∨ (57343 < c.toNat ∧ c.toNat < 1114112) := by
  have h := c.valid
  simp only [UInt32.isValidChar, Nat.isValidChar] at h
  exact h

theorem decodeEscape_enc (c : Char) (E : Str) :
    decodeEscape ((utf8BytesOfCode c.toNat).flatMap percentEncodeByte ++ E) = some (c, E) := by
  have hval := char_valid_nat c
  have hofn : Char.ofNat c.toNat = c := Char.ofNat_toNat c
  by_cases h1 : c.toNat < 128
  · rw [utf8BytesOfCode, if_pos h1]
    simp only [List.flatMap_cons, List.flatMap_nil, List.append_nil]
    rw [decodeEscape, readEscByte_pct _ (by omega)]
    simp only [if_pos h1, hofn]
  · by_cases h2 : c.toNat < 2048
    · rw [utf8BytesOfCode, if_neg h1, if_pos h2]
      simp only [List.flatMap_cons, List.flatMap_nil, List.append_nil, List.append_assoc]
      rw [decodeEscape, readEscByte_pct _ (by omega)]
      simp only []
      rw [if_neg (by omega), if_pos (by constructor <;> omega), readEscByte_pct _ (by omega)]
      simp only []
      rw [if_pos (by constructor <;> omega)]
      have hcp : (192 + c.toNat / 64 - 192) * 64 + (128 + c.toNat % 64 - 128) = c.toNat := by
        omega
      rw [hcp, hofn]
    · by_cases h3 : c.toNat < 65536
      · rw [utf8BytesOfCode, if_neg h1, if_neg h2, if_pos h3]
        simp only [List.flatMap_cons, List.flatMap_nil, List.append_nil, List.append_assoc]
        rw [decodeEscape, readEscByte_pct _ (by omega)]
        simp only []
        rw [if_neg (by omega), if_neg (by omega), if_pos (by constructor <;> omega),
          readEscByte_pct _ (by omega)]
        simp only []
        rw [readEscByte_pct _ (by omega)]
        simp only []
        have hcp : (224 + c.toNat / 4096 - 224) * 4096 + (128 + c.toNat / 64 % 64 - 128) * 64
            + (128 + c.toNat % 64 - 128) = c.toNat := by omega
        rw [if_pos ?side]
        case side =>
          refine ⟨⟨by omega, by omega⟩, ⟨by omega, by omega⟩, by omega, ?_⟩
          rw [hcp]
          omega
        rw [hcp, hofn]
      · rw [utf8BytesOfCode, if_neg h1, if_neg h2, if_neg h3]
        simp only [List.flatMap_cons, List.flatMap_nil, List.append_nil, List.append_assoc]
        rw [decodeEscape, readEscByte_pct _ (by omega)]
        simp only []
        rw [if_neg (by omega), if_neg (by omega), if_neg (by omega),
          if_pos (by constructor <;> omega), readEscByte_pct _ (by omega)]
        simp only []
        rw [readEscByte_pct _ (by omega)]
        simp only []
        rw [readEscByte_pct _ (by omega)]
        simp only []
        have hcp : (240 + c.toNat / 262144 - 240) * 262144 + (128 + c.toNat / 4096 % 64 - 128) * 4096
            + (128 + c.toNat / 64 % 64 - 128) * 64 + (128 + c.toNat % 64 - 128) = c.toNat := by
          omega
        rw [if_pos ?side2]
        case side2 =>
          refine ⟨⟨by omega, by omega⟩, ⟨by omega, by omega⟩, ⟨by omega, by omega⟩, ?_, ?_⟩
          · rw [hcp]; omega
          · rw [hcp]; omega
        rw [hcp, hofn]

theorem decodeURIComponent_encodeChar (c : Char) (E : Str) :
    decodeURIComponent (encodeChar c ++ E) = (decodeURIComponent E).map (fun t => c :: t) := by
  by_cases hu : isUriUnreserved c
  · rw [encodeChar, if_pos hu]
    exact decodeURIComponent_cons_of_ne (isUriUnreserved_ne_percent hu) E
  · rw [encodeChar, if_neg hu]
    exact decodeURIComponent_of_decodeEscape (decodeEscape_enc c E)

theorem decodeURIComponent_encodeURIComponent (s : Str) :
    decodeURIComponent (encodeURIComponent s) = some s := by
  induction s with
  | nil => rfl
  | cons c s ih =>
    rw [encodeURIComponent, List.flatMap_cons, ← encodeURIComponent,
      decodeURIComponent_encodeChar, ih]
    rfl

/-! ### Round trip of the query codec -/

theorem utf8BytesOfCode_lt {n : Nat} (hn : n < 1114112) :
    ∀ b ∈ utf8BytesOfCode n, b < 256 := by
  intro b hb
  unfold utf8BytesOfCode at hb
  split_ifs at hb <;>
    simp only [List.mem_cons, List.mem_singleton, List.not_mem_nil, or_false] at hb <;>
    omega

theorem hexDigitChar_ne : ∀ x : Nat, x < 16 → hexDigitChar x ≠ '&' ∧ hexDigitChar x ≠ '=' := by
  decide

theorem mem_encodeChar_ne {x c : Char} (hx : x ∈ encodeChar c) : x ≠ '&' ∧ x ≠ '=' := by
  unfold encodeChar at hx
  split_ifs at hx with hu
  · rw [List.mem_singleton] at hx
    subst hx
    constructor <;> intro he <;> rw [he] at hu <;>
      simp [isUriUnreserved, uriUnreservedMarks] at hu
  · rw [List.mem_flatMap] at hx
    obtain ⟨b, hb, hxb⟩ := hx
    have hval := char_valid_nat c
    have hb256 : b < 256 := utf8BytesOfCode_lt (by omega) b hb
    simp only [percentEncodeByte, List.mem_cons, List.mem_singleton, List.not_mem_nil,
      or_false] at hxb
    rcases hxb with rfl | rfl | rfl
    · constructor <;> decide
    · exact hexDigitChar_ne _ (by omega)
    · exact hexDigitChar_ne _ (by omega)

theorem amp_not_mem_encodeURIComponent (s : Str) : '&' ∉ encodeURIComponent s := by
  intro h
  rw [encodeURIComponent, List.mem_flatMap] at h
  obtain ⟨c, -, hc⟩ := h
  exact (mem_encodeChar_ne hc).1 rfl

theorem eqc_not_mem_encodeURIComponent (s : Str) : '=' ∉ encodeURIComponent s := by
  intro h
  rw [encodeURIComponent, List.mem_flatMap] at h
  obtain ⟨c, -, hc⟩ := h
  exact (mem_encodeChar_ne hc).2 rfl

theorem encodeChar_ne_nil (c : Char) : encodeChar c ≠ [] := by
  unfold encodeChar
  split_ifs with hu
  · simp
  · have hval := char_valid_nat c
    unfold utf8BytesOfCode
    split_ifs <;> simp [percentEncodeByte]

theorem encodeURIComponent_ne_nil {s : Str} (hs : s ≠ []) : encodeURIComponent s ≠ [] := by
  cases s with
  | nil => exact absurd rfl hs
  | cons c t =>
    rw [encodeURIComponent, List.flatMap_cons]
    intro h
    rw [List.append_eq_nil] at h
    exact encodeChar_ne_nil c h.1

theorem kept_segments (m : JsObj) :
    ((m.filter truthyEntry).filterMap encodeEntry).filter notEmptyStr
      = (m.filter keepArg).map segOf := by
  induction m with
  | nil => rfl
  | cons p es ih =>
    obtain ⟨k, v⟩ := p
    rw [List.filter_cons, List.filter_cons]
    cases v with
    | undefined =>
      rw [if_neg (by simp [truthyEntry, truthy]), if_neg (by simp [keepArg, truthy])]
      exact ih
    | bool b =>
      cases b with
      | false =>
        rw [if_neg (by simp [truthyEntry, truthy]), if_neg (by simp [keepArg, truthy])]
        exact ih
      | true =>
        rw [if_pos (by simp [truthyEntry, truthy]), List.filterMap_cons]
        have he : encodeEntry (k, JsVal.bool true) = some (encodeURIComponent k) := rfl
        rw [he, List.filter_cons]
        by_cases hk : k = []
        · subst hk
          rw [if_neg (by simp [notEmptyStr, encodeURIComponent]),
            if_neg (by simp [keepArg, truthy])]
          exact ih
        · have hne : encodeURIComponent k ≠ [] := encodeURIComponent_ne_nil hk
          rw [if_pos (by simp [notEmptyStr, List.isEmpty_iff, hne]),
            if_pos (by simp [keepArg, truthy, List.isEmpty_iff, hk]), List.map_cons]
          have hseg : segOf (k, JsVal.bool true) = encodeURIComponent k := rfl
          rw [hseg, ih]
    | str s =>
      by_cases hs : s = []
      · subst hs
        rw [if_neg (by simp [truthyEntry, truthy]), if_neg (by simp [keepArg, truthy])]
        exact ih
      · rw [if_pos (by simp [truthyEntry, truthy, List.isEmpty_iff, hs]), List.filterMap_cons]
        have he : encodeEntry (k, JsVal.str s)
            = some (encodeURIComponent k ++ ['='] ++ encodeURIComponent s) := rfl
        rw [he, List.filter_cons]
        rw [if_pos (by simp [notEmptyStr, List.isEmpty_iff]),
          if_pos (by simp [keepArg, truthy, List.isEmpty_iff, hs]), List.map_cons]
        have hseg : segOf (k, JsVal.str s)
            = encodeURIComponent k ++ ['='] ++ encodeURIComponent s := rfl
        rw [hseg, ih]

theorem splitOn_single {α : Type} [DecidableEq α] {x : α} {xs : List α} (h : x ∉ xs) :
    xs.splitOn x = [xs] := by
  apply List.splitOnP_eq_single
  intro y hy
  simp only [beq_iff_eq]
  rintro rfl
  exact h hy

theorem splitOn_first_of_not_mem {α : Type} [DecidableEq α] {x : α} {xs : List α}
    (h : x ∉ xs) (as : List α) : (xs ++ x :: as).splitOn x = xs :: as.splitOn x := by
  apply List.splitOnP_first
  · intro y hy
    simp only [beq_iff_eq]
    rintro rfl
    exact h hy
  · simp

theorem objSet_fresh {o : JsObj} {k : Str} (v : JsVal) (h : ∀ q ∈ o, q.1 ≠ k) :
    objSet o k v = o ++ [(k, v)] := by
  rw [objSet, if_neg]
  simp only [List.any_eq_true, decide_eq_true_eq, not_exists, not_and]
  exact h

theorem option_some_bind {α β : Type} (a : α) (f : α → Option β) :
    (some a).bind f = f a := rfl

theorem option_some_bindM {α β : Type} (a : α) (f : α → Option β) :
    ((some a : Option α) >>= f) = f a := rfl

theorem decodeQueryStep_bare (acc : JsObj) (k : Str) :
    decodeQueryStep acc (encodeURIComponent k) = some (objSet acc k (.bool true)) := by
  simp only [decodeQueryStep]
  rw [splitOn_single (eqc_not_mem_encodeURIComponent k)]
  simp only [List.headD_cons, List.getElem?_cons_succ, List.getElem?_nil,
    decodeURIComponent_encodeURIComponent, option_some_bind]

theorem decodeQueryStep_kv (acc : JsObj) (k s : Str) (hs : s ≠ []) :
    decodeQueryStep acc (encodeURIComponent k ++ ['='] ++ encodeURIComponent s)
      = some (objSet acc k (.str s)) := by
  simp only [decodeQueryStep]
  rw [List.append_assoc, List.singleton_append,
    splitOn_first_of_not_mem (eqc_not_mem_encodeURIComponent k),
    splitOn_single (eqc_not_mem_encodeURIComponent s)]
  simp only [List.headD_cons, List.getElem?_cons_succ, List.getElem?_cons_zero,
    decodeURIComponent_encodeURIComponent, option_some_bind]
  rw [if_neg (by simp only [List.isEmpty_eq_true]; exact encodeURIComponent_ne_nil hs)]
  rfl

theorem foldlM_decodeQueryStep (entries : JsObj) :
    ∀ acc : JsObj, (∀ p ∈ entries, keepArg p = true) →
    ((entries.map Prod.fst).Nodup) →
    (∀ p ∈ entries, ∀ q ∈ acc, q.1 ≠ p.1) →
    (entries.map segOf).foldlM decodeQueryStep acc = some (acc ++ entries) := by
  induction entries with
  | nil =>
    intro acc _ _ _
    simp
  | cons p es ih =>
    intro acc hkeep hnd hfresh
    obtain ⟨k, v⟩ := p
    have hk := hkeep (k, v) (List.mem_cons_self _ _)
    have hstep : decodeQueryStep acc (segOf (k, v)) = some (objSet acc k v) := by
      cases v with
      | str s =>
        have hs : s ≠ [] := by
          intro he
          subst he
          simp [keepArg, truthy] at hk
        have hsegOf : segOf (k, JsVal.str s)
            = encodeURIComponent k ++ ['='] ++ encodeURIComponent s := rfl
        rw [hsegOf, decodeQueryStep_kv acc k s hs]
      | bool b =>
        cases b with
        | false => exact absurd hk (by simp [keepArg, truthy])
        | true =>
          have hsegOf : segOf (k, JsVal.bool true) = encodeURIComponent k := rfl
          rw [hsegOf, decodeQueryStep_bare]
      | undefined => exact absurd hk (by simp [keepArg, truthy])
    have hknotin : k ∉ es.map Prod.fst := (List.nodup_cons.mp hnd).1
    have hobj : objSet acc k v = acc ++ [(k, v)] :=
      objSet_fresh v (fun q hq => hfresh (k, v) (List.mem_cons_self _ _) q hq)
    rw [List.map_cons, List.foldlM_cons, hstep, option_some_bindM]
    rw [hobj, ih (acc ++ [(k, v)])
      (fun p hp => hkeep p (List.mem_cons_of_mem _ hp))
      (List.nodup_cons.mp hnd).2
      ?fresh]
    · simp
    case fresh =>
      intro q hq r hr
      rcases List.mem_append.mp hr with hr | hr
      · exact hfresh q (List.mem_cons_of_mem _ hq) r hr
      · rw [List.mem_singleton] at hr
        subst hr
        intro he
        apply hknotin
        rw [show k = q.1 from he]
        exact List.mem_map_of_mem Prod.fst hq

theorem amp_not_mem_segOf (p : Str × JsVal) : '&' ∉ segOf p := by
  obtain ⟨k, v⟩ := p
  cases v with
  | str s =>
    have h : segOf (k, JsVal.str s) = encodeURIComponent k ++ ['='] ++ encodeURIComponent s := rfl
    rw [h]
    intro hm
    rcases List.mem_append.mp hm with hm | hm
    · rcases List.mem_append.mp hm with hm | hm
      · exact amp_not_mem_encodeURIComponent k hm
      · simp at hm
    · exact amp_not_mem_encodeURIComponent s hm
  | bool b => exact amp_not_mem_encodeURIComponent k
  | undefined => exact amp_not_mem_encodeURIComponent k

/-- Decoding the encoding of an argument object with distinct keys yields
exactly the entries whose value is truthy and whose encoded segment is
non-empty, in their original order. -/
theorem decodeUriQuery_encodeQuery (m : JsObj) (hnd : (m.map Prod.fst).Nodup)
    (hne : m.filter keepArg ≠ []) :
    decodeUriQuery (encodeQuery m) = some (m.filter keepArg) := by
  have hamp : ∀ l ∈ (m.filter keepArg).map segOf, '&' ∉ l := by
    intro l hl
    rw [List.mem_map] at hl
    obtain ⟨p, -, rfl⟩ := hl
    exact amp_not_mem_segOf p
  have hnil : (m.filter keepArg).map segOf ≠ [] := by
    intro hmap
    exact hne (List.map_eq_nil.mp hmap)
  rw [decodeUriQuery, encodeQuery, kept_segments,
    List.splitOn_intercalate ((m.filter keepArg).map segOf) '&' hamp hnil]
  rw [foldlM_decodeQueryStep (m.filter keepArg) []
    (fun p hp => List.of_mem_filter hp)
    (List.Nodup.sublist (List.Sublist.map Prod.fst (List.filter_sublist m)) hnd)
    (by simp)]
  simp

theorem objSet_ne_nil (o : JsObj) (k : Str) (v : JsVal) : objSet o k v ≠ [] := by
  rw [objSet]
  split_ifs with h
  · intro he
    rw [List.map_eq_nil] at he
    subst he
    simp at h
  · simp

theorem decodeQueryStep_shape {acc acc2 : JsObj} {seg : Str}
    (h : decodeQueryStep acc seg = some acc2) : ∃ n v, acc2 = objSet acc n v := by
  unfold decodeQueryStep at h
  rw [Option.bind_eq_some] at h
  obtain ⟨name, -, h⟩ := h
  split at h
  · split_ifs at h
    · exact ⟨name, .bool true, (Option.some.inj h).symm⟩
    · rw [Option.map_eq_some'] at h
      obtain ⟨v, -, hv⟩ := h
      exact ⟨name, .str v, hv.symm⟩
  · exact ⟨name, .bool true, (Option.some.inj h).symm⟩

theorem decodeQueryStep_ne_nil {acc acc2 : JsObj} {seg : Str}
    (h : decodeQueryStep acc seg = some acc2) : acc2 ≠ [] := by
  obtain ⟨n, v, rfl⟩ := decodeQueryStep_shape h
  exact objSet_ne_nil acc n v

theorem foldlM_decodeQueryStep_ne_nil :
    ∀ (segs : List Str) (acc m : JsObj), acc ≠ [] →
      segs.foldlM decodeQueryStep acc = some m → m ≠ [] := by
  intro segs
  induction segs with
  | nil =>
    intro acc m hacc h
    simp only [List.foldlM_nil] at h
    cases h
    exact hacc
  | cons seg rest ih =>
    intro acc m hacc h
    rw [List.foldlM_cons] at h
    rcases hstep : decodeQueryStep acc seg with _ | acc2
    · rw [hstep] at h
      cases h
    · rw [hstep, option_some_bindM] at h
      exact ih acc2 m (decodeQueryStep_ne_nil hstep) h

theorem decodeUriQuery_ne_nil {q : Str} {m : JsObj} (h : decodeUriQuery q = some m) :
    m ≠ [] := by
  rw [decodeUriQuery] at h
  rcases hsplit : q.splitOn '&' with _ | ⟨seg, rest⟩
  · exact absurd hsplit (List.splitOnP_ne_nil _ q)
  · rw [hsplit, List.foldlM_cons] at h
    rcases hstep : decodeQueryStep [] seg with _ | acc2
    · rw [hstep] at h
      cases h
    · rw [hstep, option_some_bindM] at h
      exact foldlM_decodeQueryStep_ne_nil rest acc2 m (decodeQueryStep_ne_nil hstep) h

/-! ### Properties of the URI layer -/

theorem decodeURIComponent_no_pct {s : Str} (h : '%' ∉ s) : decodeURIComponent s = some s := by
  induction s with
  | nil => rfl
  | cons c t ih =>
    rw [decodeURIComponent_cons_of_ne (fun he => h (he ▸ List.mem_cons_self c t)) t,
      ih (fun hm => h (List.mem_cons_of_mem c hm))]
    rfl

theorem percentDecodeVS_no_pct {s : Str} (h : '%' ∉ s) : percentDecodeVS s = s := by
  rw [percentDecodeVS, decodeURIComponent_no_pct h]
  rfl

theorem takeWhile_append_all {α : Type} {p : α → Bool} {l1 l2 : List α}
    (h : ∀ x ∈ l1, p x = true) : (l1 ++ l2).takeWhile p = l1 ++ l2.takeWhile p := by
  induction l1 with
  | nil => rfl
  | cons a t ih =>
    rw [List.cons_append, List.takeWhile_cons, if_pos (h a (List.mem_cons_self a t)),
      ih (fun x hx => h x (List.mem_cons_of_mem a hx)), List.cons_append]

theorem dropWhile_append_all {α : Type} {p : α → Bool} {l1 l2 : List α}
    (h : ∀ x ∈ l1, p x = true) : (l1 ++ l2).dropWhile p = l2.dropWhile p := by
  induction l1 with
  | nil => rfl
  | cons a t ih =>
    rw [List.cons_append, List.dropWhile_cons_of_pos (h a (List.mem_cons_self a t)),
      ih (fun x hx => h x (List.mem_cons_of_mem a hx))]

theorem objGet_of_mem_nodup {l : JsObj} {k : Str} {v : JsVal}
    (hm : (k, v) ∈ l) (hnd : (l.map Prod.fst).Nodup) : objGet l k = v := by
  induction l with
  | nil => cases hm
  | cons p t ih =>
    rw [List.map_cons, List.nodup_cons] at hnd
    rcases List.mem_cons.mp hm with rfl | hm2
    · unfold objGet
      rw [List.find?_cons_of_pos _ (by simp)]
    · have hne : ¬(p.1 = k) := fun he => hnd.1 (he ▸ List.mem_map_of_mem Prod.fst hm2)
      unfold objGet at ih ⊢
      rw [List.find?_cons_of_neg _ (by simp [hne])]
      exact ih hm2 hnd.2

/-- Parsing `perforce://<depotName>/<rest>` for a clean depot name and path. -/
theorem uriParse_perforce_depot (dn rest : Str) (hdn : dn ≠ [])
    (hdnc : ∀ c ∈ dn, c ≠ '/' ∧ c ≠ '?' ∧ c ≠ '#' ∧ c ≠ '%')
    (hrestc : ∀ c ∈ rest, c ≠ '?' ∧ c ≠ '#' ∧ c ≠ '%') :
    uriParse (('p' :: 'e' :: 'r' :: 'f' :: 'o' :: 'r' :: 'c' :: 'e' :: ':' :: []) ++
        ('/' :: '/' :: (dn ++ '/' :: rest))) =
      ⟨('p' :: 'e' :: 'r' :: 'f' :: 'o' :: 'r' :: 'c' :: 'e' :: []), dn, '/' :: rest, [], []⟩ := by
  have hdnAuth : ∀ c ∈ dn, authChar c = true := by
    intro c hc
    obtain ⟨h1, h2, h3, -⟩ := hdnc c hc
    simp [authChar, h1, h2, h3]
  have hrestPath : ∀ c ∈ rest, pathChar c = true := by
    intro c hc
    obtain ⟨h1, h2, -⟩ := hrestc c hc
    simp [pathChar, h1, h2]
  have hsch : ∀ c ∈ ('p' :: 'e' :: 'r' :: 'f' :: 'o' :: 'r' :: 'c' :: 'e' :: []),
      schemeChar c = true := by decide
  have e1 : (('p' :: 'e' :: 'r' :: 'f' :: 'o' :: 'r' :: 'c' :: 'e' :: ':' :: []) ++
      ('/' :: '/' :: (dn ++ '/' :: rest)))
      = ('p' :: 'e' :: 'r' :: 'f' :: 'o' :: 'r' :: 'c' :: 'e' :: []) ++
        (':' :: '/' :: '/' :: (dn ++ '/' :: rest)) := by simp
  have hps : parseScheme (('p' :: 'e' :: 'r' :: 'f' :: 'o' :: 'r' :: 'c' :: 'e' :: ':' :: []) ++
      ('/' :: '/' :: (dn ++ '/' :: rest)))
      = (('p' :: 'e' :: 'r' :: 'f' :: 'o' :: 'r' :: 'c' :: 'e' :: []),
         '/' :: '/' :: (dn ++ '/' :: rest)) := by
    rw [parseScheme, e1, takeWhile_append_all hsch, dropWhile_append_all hsch]
    have e2 : List.takeWhile schemeChar (':' :: '/' :: '/' :: (dn ++ '/' :: rest)) = [] := by
      rw [List.takeWhile_cons]
      simp [schemeChar]
    have e3 : List.dropWhile schemeChar (':' :: '/' :: '/' :: (dn ++ '/' :: rest))
        = ':' :: '/' :: '/' :: (dn ++ '/' :: rest) := by
      rw [List.dropWhile_cons_of_neg]
      simp [schemeChar]
    rw [e2, e3]
    rw [if_pos (by simp)]
    rfl
  have hpa : parseAuthority ('/' :: '/' :: (dn ++ '/' :: rest)) = (dn, '/' :: rest) := by
    rw [parseAuthority, if_pos (by simp)]
    have e4 : List.drop 2 ('/' :: '/' :: (dn ++ '/' :: rest)) = dn ++ '/' :: rest := rfl
    rw [e4, takeWhile_append_all hdnAuth, dropWhile_append_all hdnAuth]
    have e5 : List.takeWhile authChar ('/' :: rest) = [] := by
      rw [List.takeWhile_cons]
      simp [authChar]
    have e6 : List.dropWhile authChar ('/' :: rest) = '/' :: rest := by
      rw [List.dropWhile_cons_of_neg]
      simp [authChar]
    rw [e5, e6, List.append_nil]
  have e7 : List.takeWhile pathChar ('/' :: rest) = '/' :: rest := by
    rw [List.takeWhile_eq_self_iff]
    intro x hx
    rcases List.mem_cons.mp hx with rfl | hx2
    · decide
    · exact hrestPath x hx2
  have e8 : List.dropWhile pathChar ('/' :: rest) = [] := by
    rw [List.dropWhile_eq_nil_iff]
    intro x hx
    rcases List.mem_cons.mp hx with rfl | hx2
    · decide
    · exact hrestPath x hx2
  have hp1 : '%' ∉ dn := fun hm => (hdnc '%' hm).2.2.2 rfl
  have hp2 : '%' ∉ ('/' :: rest) := by
    intro hm
    rcases List.mem_cons.mp hm with he | hm2
    · cases he
    · exact (hrestc '%' hm2).2.2 rfl
  rw [uriParse]
  simp only [hps, hpa, e7, e8]
  rw [if_neg (by simp), percentDecodeVS_no_pct hp1, percentDecodeVS_no_pct hp2]
  have hresr : referenceResolution
      ('p' :: 'e' :: 'r' :: 'f' :: 'o' :: 'r' :: 'c' :: 'e' :: []) ('/' :: rest)
      = '/' :: rest := by
    rw [referenceResolution, if_neg (by decide)]
  rw [hresr]
  rfl

/-- Splitting a well-formed depot path on `/`: leading `//`, then the depot
name, then the remainder. -/
theorem splitOn_depotPath (dn rest : Str) (hdn : ∀ c ∈ dn, ¬(c = '/')) :
    ('/' :: '/' :: (dn ++ '/' :: rest)).splitOn '/'
      = [] :: [] :: dn :: rest.splitOn '/' := by
  rw [List.splitOn, List.splitOnP_cons, if_pos (by simp), List.splitOnP_cons, if_pos (by simp)]
  rw [List.splitOnP_first _ dn (fun x hx => by simpa using hdn x hx) '/' (by simp) rest]
  rfl

/-- C2: `getDepotPathFromDepotUri` recovers the exact depot path given to
`fromDepotPath`, for any depot path `//depotName/rest` whose characters stay
clear of the URI metacharacters `?`, `#` and `%` (backslashes and any other
characters are allowed and are not treated as separators). -/
theorem getDepotPath_fromDepotPath (ws u : Uri) (dn rest : Str) (rev : Option Str)
    (hdn : dn ≠ [])
    (hdnc : ∀ c ∈ dn, c ≠ '/' ∧ c ≠ '?' ∧ c ≠ '#' ∧ c ≠ '%')
    (hrestc : ∀ c ∈ rest, c ≠ '?' ∧ c ≠ '#' ∧ c ≠ '%')
    (h : fromDepotPath ws ('/' :: '/' :: (dn ++ '/' :: rest)) rev = some u) :
    getDepotPathFromDepotUri u = some ('/' :: '/' :: (dn ++ '/' :: rest)) := by
  unfold fromDepotPath at h
  rw [uriParse_perforce_depot dn rest hdn hdnc hrestc,
    splitOn_depotPath dn rest (fun c hc => (hdnc c hc).1)] at h
  obtain ⟨fr, hbase⟩ : ∃ fr,
      uriWithRev ⟨('p' :: 'e' :: 'r' :: 'f' :: 'o' :: 'r' :: 'c' :: 'e' :: []), dn,
        '/' :: rest, [], []⟩ rev
      = ⟨('p' :: 'e' :: 'r' :: 'f' :: 'o' :: 'r' :: 'c' :: 'e' :: []), dn,
        '/' :: rest, [], fr⟩ := by
    cases rev with
    | none => exact ⟨[], rfl⟩
    | some r => exact ⟨r, rfl⟩
  rw [hbase] at h
  rcases hus : getUsableWorkspace ws with _ | usable
  · rw [hus] at h
    simp only [] at h
    exact Option.noConfusion h
  rw [hus] at h
  simp only [List.getElem?_cons_succ, List.getElem?_cons_zero] at h
  generalize hW : uriFsPath (usable.getD ws) = W at h
  generalize hR : (match rev with | some r => JsVal.str r | none => JsVal.undefined) = R at h
  unfold fromUri at h
  have hdq : decodeUriQuery ([] : Str) = some [([], JsVal.bool true)] := rfl
  have hq :
      (⟨('p' :: 'e' :: 'r' :: 'f' :: 'o' :: 'r' :: 'c' :: 'e' :: []), dn,
        '/' :: rest, [], fr⟩ : Uri).query = ([] : Str) := rfl
  rw [hq, hdq] at h
  rw [Option.map_eq_some'] at h
  obtain ⟨ex, hex, h⟩ := h
  have hex2 : ex = [(([] : Str), JsVal.bool true)] := (Option.some.inj hex).symm
  subst hex2
  subst h
  have hM : objAssign (objAssign defaultArgs [(([] : Str), JsVal.bool true)])
      [(('d' :: 'e' :: 'p' :: 'o' :: 't' :: []), JsVal.bool true),
       (('w' :: 'o' :: 'r' :: 'k' :: 's' :: 'p' :: 'a' :: 'c' :: 'e' :: []), JsVal.str W),
       (('d' :: 'e' :: 'p' :: 'o' :: 't' :: 'N' :: 'a' :: 'm' :: 'e' :: []), JsVal.str dn),
       (('r' :: 'e' :: 'v' :: []), R)]
      = [(('c' :: 'o' :: 'm' :: 'm' :: 'a' :: 'n' :: 'd' :: []),
            JsVal.str ('p' :: 'r' :: 'i' :: 'n' :: 't' :: [])),
         (('p' :: '4' :: 'A' :: 'r' :: 'g' :: 's' :: []), JsVal.str ('-' :: 'q' :: [])),
         (([] : Str), JsVal.bool true),
         (('d' :: 'e' :: 'p' :: 'o' :: 't' :: []), JsVal.bool true),
         (('w' :: 'o' :: 'r' :: 'k' :: 's' :: 'p' :: 'a' :: 'c' :: 'e' :: []), JsVal.str W),
         (('d' :: 'e' :: 'p' :: 'o' :: 't' :: 'N' :: 'a' :: 'm' :: 'e' :: []), JsVal.str dn),
         (('r' :: 'e' :: 'v' :: []), R)] := rfl
  rw [getDepotPathFromDepotUri]
  have hq2 : (uriWithSchemeQuery
      ⟨('p' :: 'e' :: 'r' :: 'f' :: 'o' :: 'r' :: 'c' :: 'e' :: []), dn, '/' :: rest, [], fr⟩
      ('p' :: 'e' :: 'r' :: 'f' :: 'o' :: 'r' :: 'c' :: 'e' :: [])
      (encodeQuery (objAssign (objAssign defaultArgs [(([] : Str), JsVal.bool true)])
        [(('d' :: 'e' :: 'p' :: 'o' :: 't' :: []), JsVal.bool true),
         (('w' :: 'o' :: 'r' :: 'k' :: 's' :: 'p' :: 'a' :: 'c' :: 'e' :: []), JsVal.str W),
         (('d' :: 'e' :: 'p' :: 'o' :: 't' :: 'N' :: 'a' :: 'm' :: 'e' :: []), JsVal.str dn),
         (('r' :: 'e' :: 'v' :: []), R)]))).query
      = encodeQuery (objAssign (objAssign defaultArgs [(([] : Str), JsVal.bool true)])
        [(('d' :: 'e' :: 'p' :: 'o' :: 't' :: []), JsVal.bool true),
         (('w' :: 'o' :: 'r' :: 'k' :: 's' :: 'p' :: 'a' :: 'c' :: 'e' :: []), JsVal.str W),
         (('d' :: 'e' :: 'p' :: 'o' :: 't' :: 'N' :: 'a' :: 'm' :: 'e' :: []), JsVal.str dn),
         (('r' :: 'e' :: 'v' :: []), R)]) := rfl
  rw [hq2, hM]
  set M := [(('c' :: 'o' :: 'm' :: 'm' :: 'a' :: 'n' :: 'd' :: []),
        JsVal.str ('p' :: 'r' :: 'i' :: 'n' :: 't' :: [])),
     (('p' :: '4' :: 'A' :: 'r' :: 'g' :: 's' :: []), JsVal.str ('-' :: 'q' :: [])),
     (([] : Str), JsVal.bool true),
     (('d' :: 'e' :: 'p' :: 'o' :: 't' :: []), JsVal.bool true),
     (('w' :: 'o' :: 'r' :: 'k' :: 's' :: 'p' :: 'a' :: 'c' :: 'e' :: []), JsVal.str W),
     (('d' :: 'e' :: 'p' :: 'o' :: 't' :: 'N' :: 'a' :: 'm' :: 'e' :: []), JsVal.str dn),
     (('r' :: 'e' :: 'v' :: []), R)] with hMdef
  have hkeys : M.map Prod.fst
      = [('c' :: 'o' :: 'm' :: 'm' :: 'a' :: 'n' :: 'd' :: []),
         ('p' :: '4' :: 'A' :: 'r' :: 'g' :: 's' :: []), ([] : Str),
         ('d' :: 'e' :: 'p' :: 'o' :: 't' :: []),
         ('w' :: 'o' :: 'r' :: 'k' :: 's' :: 'p' :: 'a' :: 'c' :: 'e' :: []),
         ('d' :: 'e' :: 'p' :: 'o' :: 't' :: 'N' :: 'a' :: 'm' :: 'e' :: []),
         ('r' :: 'e' :: 'v' :: [])] := rfl
  have hnd : (M.map Prod.fst).Nodup := by
    rw [hkeys]
    decide
  have hmemdn : (('d' :: 'e' :: 'p' :: 'o' :: 't' :: 'N' :: 'a' :: 'm' :: 'e' :: []),
      JsVal.str dn) ∈ M.filter keepArg := by
    rw [List.mem_filter]
    constructor
    · rw [hMdef]
      simp
    · simp [keepArg, truthy, List.isEmpty_eq_true, hdn]
  have hne : M.filter keepArg ≠ [] := fun hnil => by
    rw [hnil] at hmemdn
    cases hmemdn
  rw [decodeUriQuery_encodeQuery M hnd hne]
  have hget : objGet (M.filter keepArg)
      ('d' :: 'e' :: 'p' :: 'o' :: 't' :: 'N' :: 'a' :: 'm' :: 'e' :: []) = JsVal.str dn :=
    objGet_of_mem_nodup hmemdn
      (List.Nodup.sublist (List.Sublist.map Prod.fst (List.filter_sublist M)) hnd)
  refine Option.map_eq_some'.mpr ⟨M.filter keepArg, rfl, ?_⟩
  rw [hget]
  simp only []
  rw [show (uriWithoutRev (uriWithSchemeQuery
      ⟨('p' :: 'e' :: 'r' :: 'f' :: 'o' :: 'r' :: 'c' :: 'e' :: []), dn, '/' :: rest, [], fr⟩
      ('p' :: 'e' :: 'r' :: 'f' :: 'o' :: 'r' :: 'c' :: 'e' :: [])
      (encodeQuery M))).path = '/' :: rest from rfl]
  simp

/-- C4: `withArgs` leaves the fragment untouched when no revision argument is
supplied, and replaces it when one is. -/
theorem withArgs_fragment (u u1 u2 : Uri) (args : JsObj)
    (h3 : u.fragment = ('3' :: []))
    (h1 : withArgs u args none = some u1)
    (h2 : withArgs u args (some ('7' :: [])) = some u2) :
    u1.fragment = ('3' :: []) ∧ u2.fragment = ('7' :: []) := by
  unfold withArgs at h1 h2
  rw [Option.map_eq_some'] at h1 h2
  obtain ⟨c1, -, h1⟩ := h1
  obtain ⟨c2, -, h2⟩ := h2
  subst h1
  subst h2
  exact ⟨h3, rfl⟩

/-! ### Claim theorems: the query codec (C1, C8, C10) -/

/-- C1, counterexample: decoding the encoding of the empty mapping does not
return the empty mapping — it returns the mapping binding the empty-string
key to boolean `true`. -/
theorem decode_encode_empty_map_cex :
    decodeUriQuery (encodeQuery ([] : JsObj)) = some [(([] : Str), JsVal.bool true)] ∧
      decodeUriQuery (encodeQuery ([] : JsObj)) ≠ some ([] : JsObj) := by
  constructor
  · rfl
  · decide

/-- C1, amended: for every non-empty argument mapping with distinct non-empty
keys whose values are all truthy (non-empty strings or boolean `true`),
decoding the encoded form returns the mapping exactly. -/
theorem decode_encode_roundtrip (m : JsObj)
    (hne : m ≠ [])
    (hnd : (m.map Prod.fst).Nodup)
    (hkeys : ∀ p ∈ m, p.1 ≠ [])
    (hvals : ∀ p ∈ m, truthy p.2 = true) :
    decodeUriQuery (encodeQuery m) = some m := by
  have hkeep : ∀ p ∈ m, keepArg p = true := by
    intro p hp
    have hv := hvals p hp
    have hk := hkeys p hp
    simp [keepArg, hv, List.isEmpty_eq_true, hk]
  have hfe : m.filter keepArg = m := List.filter_eq_self.mpr hkeep
  rw [decodeUriQuery_encodeQuery m hnd (by rw [hfe]; exact hne), hfe]

/-- C1, witness for the amended round trip at a concrete mapping. -/
theorem decode_encode_roundtrip_witness :
    decodeUriQuery (encodeQuery [(('a' :: []), JsVal.str ('x' :: [])),
        (('f' :: []), JsVal.bool true)])
      = some [(('a' :: []), JsVal.str ('x' :: [])), (('f' :: []), JsVal.bool true)] :=
  decode_encode_roundtrip _ (by decide) (by decide) (by decide) (by decide)

/-- C8: the concrete encoding scenario — string values become percent-encoded
`key=value` pairs in mapping order, boolean `true` becomes a bare key, and
`undefined` or falsy (empty-string) values are omitted entirely. -/
theorem encodeQuery_concrete :
    encodeQuery [("command".data, JsVal.str ("p&r=int".data)),
        ("p4Args".data, JsVal.str ("-q".data)), ("depot".data, JsVal.bool true)]
      = "command=p%26r%3Dint&p4Args=-q&depot".data ∧
    encodeQuery [("command".data, JsVal.str ("p&r=int".data)),
        ("p4Args".data, JsVal.str ("-q".data)), ("depot".data, JsVal.bool true),
        ("leftUri".data, JsVal.undefined), ("haveRev".data, JsVal.str [])]
      = "command=p%26r%3Dint&p4Args=-q&depot".data := by
  constructor
  · rfl
  · rfl

/-- C10: decoding the empty query string yields the mapping binding the empty
key to `true`, and any successfully decoded query yields a non-empty
mapping. -/
theorem decodeUriQuery_never_empty :
    decodeUriQuery ([] : Str) = some [(([] : Str), JsVal.bool true)] ∧
      ∀ (q : Str) (m : JsObj), decodeUriQuery q = some m → m ≠ [] :=
  ⟨rfl, fun _ _ h => decodeUriQuery_ne_nil h⟩

/-- C10, witness: the universal part applied to a concrete query string. -/
theorem decodeUriQuery_never_empty_witness :
    ([(('a' :: []), JsVal.bool true)] : JsObj) ≠ [] :=
  decodeUriQuery_never_empty.2 ('a' :: []) [(('a' :: []), JsVal.bool true)] rfl

/-! ### Claim theorems: C2 witness, C3, C4, C7 -/

/-- C2, witness: the round trip at a depot path containing a backslash,
which is not treated as a path separator. -/
theorem getDepotPath_fromDepotPath_witness :
    (fromDepotPath (uriFile ("/home/file.txt".data))
        ('/' :: '/' :: ("depot".data ++ '/' :: ('a' :: Char.ofNat 92 :: 'b' :: '.' :: 't' :: 'x' :: 't' :: [])))
        (some ('2' :: []))).bind getDepotPathFromDepotUri
      = some ('/' :: '/' :: ("depot".data ++ '/'
          :: ('a' :: Char.ofNat 92 :: 'b' :: '.' :: 't' :: 'x' :: 't' :: []))) := by
  rcases hu : fromDepotPath (uriFile ("/home/file.txt".data))
      ('/' :: '/' :: ("depot".data ++ '/' :: ('a' :: Char.ofNat 92 :: 'b' :: '.' :: 't' :: 'x' :: 't' :: [])))
      (some ('2' :: [])) with _ | u
  · exact absurd hu (by decide)
  · rw [option_some_bind]
    exact getDepotPath_fromDepotPath _ u _ _ _ (by decide) (by decide) (by decide) hu

/-- C3: evaluating the changelist header parser on the claimed line.  The
structural captures come out as the claim states (`chnum` 45, user `super`,
client `matto`, not pending), but the date — parsed from `2020/02/15`
without a time — is the invalid date: `parseDate` passes `undefined`
hour/minute/second arguments to the `Date` constructor, which coerces them to
NaN instead of leaving them unset. -/
theorem parseChangelistHeader_line45 :
    parseChangelistHeader ("Change 45 on 2020/02/15 by super@matto ".data
        ++ Char.ofNat 39 :: ("a new changelist with a much lo".data ++ Char.ofNat 39 :: []))
      = some ⟨('4' :: '5' :: []), some JsDate.invalid, "super".data, "matto".data, false⟩ ∧
    parseDate ("2020/02/15".data) = some JsDate.invalid ∧
    parseDate ("2020/02/15 18:48:43".data) = some (JsDate.date 2020 1 15 18 48 43) := by
  refine ⟨?_, rfl, rfl⟩
  rfl

/-- C4, witness: `withArgs` at a concrete address with fragment `3`. -/
theorem withArgs_fragment_witness :
    ((⟨"perforce".data, [], "/x".data, [], '3' :: []⟩ : Uri).fragment = ('3' :: [])
        ∧ (uriWithQueryC ⟨"perforce".data, [], "/x".data, [], '3' :: []⟩
            ("p4Args=x".data)).fragment = ('3' :: []))
      ∧ (uriWithRev (uriWithQueryC (uriWithoutRev ⟨"perforce".data, [], "/x".data, [], '3' :: []⟩)
          ("p4Args=x&rev=7".data)) (some ('7' :: []))).fragment = ('7' :: []) := by
  have h := withArgs_fragment ⟨"perforce".data, [], "/x".data, [], '3' :: []⟩
    (uriWithQueryC ⟨"perforce".data, [], "/x".data, [], '3' :: []⟩ ("p4Args=x".data))
    (uriWithRev (uriWithQueryC (uriWithoutRev ⟨"perforce".data, [], "/x".data, [], '3' :: []⟩)
      ("p4Args=x&rev=7".data)) (some ('7' :: [])))
    [("p4Args".data, JsVal.str ('x' :: []))] rfl (by decide) (by decide)
  exact ⟨⟨rfl, h.1⟩, h.2⟩

/-- Keys are preserved by a JavaScript property assignment. -/
theorem objSet_keys_superset {o : JsObj} {k : Str} (k2 : Str) (v : JsVal)
    (h : k ∈ o.map Prod.fst) : k ∈ (objSet o k2 v).map Prod.fst := by
  rw [objSet]
  split_ifs with hc
  · have : (o.map (fun p => if p.1 = k2 then (k2, v) else p)).map Prod.fst
        = o.map Prod.fst := by
      rw [List.map_map]
      apply List.map_congr_left
      intro p _
      by_cases hp : p.1 = k2
      · simp [hp]
      · simp [hp]
    rw [this]
    exact h
  · rw [List.map_append]
    exact List.mem_append_left _ h

/-- Keys of the base survive an object spread. -/
theorem objAssign_keys_superset {k : Str} (extra : JsObj) :
    ∀ base : JsObj, k ∈ base.map Prod.fst → k ∈ (objAssign base extra).map Prod.fst := by
  induction extra with
  | nil => exact fun base h => h
  | cons p t ih =>
    intro base h
    exact ih (objSet base p.1 p.2) (objSet_keys_superset p.1 p.2 h)

/-- Keys of the base survive `mergeAll`. -/
theorem mergeAll_keys_superset {k : Str} {base : JsObj} (objs : List JsObj)
    (h : k ∈ base.map Prod.fst) : k ∈ (mergeAll base objs).map Prod.fst := by
  induction objs generalizing base with
  | nil => exact h
  | cons o t ih => exact ih (objAssign_keys_superset o base h)

/-- C7: the concrete z-tag block parses to exactly the claimed record — a
value-less field becomes the string `"true"`, all lines merge into one
record — and every parsed block contains the `depotFile` key. -/
theorem parseFstatSection_concrete :
    parseFstatSection ("... depotFile //depot/a.txt\n... action edit\n... mapped".data)
      = [(depotFileKey, JsVal.str ("//depot/a.txt".data)),
         ("action".data, JsVal.str ("edit".data)),
         ("mapped".data, JsVal.str ("true".data))] ∧
    ∀ s : Str, depotFileKey ∈ (parseFstatSection s).map Prod.fst := by
  constructor
  · rfl
  · intro s
    exact mergeAll_keys_superset _ (by simp)

/-! ### Claim theorem: C6 parser resilience -/

theorem sectionStep_fold_no_boundary {p : Str → Bool} (ls : List Str)
    (h : ∀ l ∈ ls, p l = false) (acc : List (List Str)) (cur : List Str) :
    ls.foldl (sectionStep p) (acc, some cur) = (acc, some (cur ++ ls)) := by
  induction ls generalizing cur with
  | nil => simp
  | cons l t ih =>
    rw [List.foldl_cons]
    have hstep : sectionStep p (acc, some cur) l = (acc, some (cur ++ [l])) := by
      rw [sectionStep, if_neg (by simp [h l (List.mem_cons_self l t)])]
    rw [hstep, ih (fun x hx => h x (List.mem_cons_of_mem l hx))]
    simp

/-- C6: one well-formed changelist record followed by a garbage line — a line
that is neither a header (the header regex fails on it) nor a tab-indented
description line — parses to exactly one record; the garbage is dropped and
the (total) parser cannot throw. -/
theorem parseChangesOutput_resilient (hline g : Str) (ds : List Str) (hr : ChangeHeader)
    (hhead : parseChangelistHeader hline = some hr)
    (hpre : ('C' :: 'h' :: 'a' :: 'n' :: 'g' :: 'e' :: []).isPrefixOf hline = true)
    (hnl1 : '\n' ∉ hline)
    (hds : ∀ d ∈ ds, ('\t' :: []).isPrefixOf d = true ∧ '\n' ∉ d)
    (hg1 : parseChangelistHeader g = none)
    (hg2 : ('\t' :: []).isPrefixOf g = false)
    (hg3 : '\n' ∉ g) :
    parseChangesOutput (List.intercalate ['\n'] (hline :: (ds ++ [g])))
      = [⟨hr.chnum, removeIndent ds, hr.date, hr.user, hr.client, hr.isPending⟩] := by
  have hlines : splitIntoLines (List.intercalate ['\n'] (hline :: (ds ++ [g])))
      = hline :: (ds ++ [g]) := by
    rw [splitIntoLines]
    apply List.splitOn_intercalate
    · intro l hl
      rcases List.mem_cons.mp hl with rfl | hl2
      · exact hnl1
      · rcases List.mem_append.mp hl2 with hl3 | hl3
        · exact (hds l hl3).2
        · rw [List.mem_singleton] at hl3
          subst hl3
          exact hg3
    · simp
  have tab_shape : ∀ d : Str, (('\t' :: []).isPrefixOf d = true) → ∃ t, d = '\t' :: t := by
    intro d hd
    cases d with
    | nil => simp [List.isPrefixOf] at hd
    | cons c t =>
      simp [List.isPrefixOf] at hd
      exact ⟨t, by rw [hd]⟩
  have hdsp : ∀ d ∈ ds,
      ('C' :: 'h' :: 'a' :: 'n' :: 'g' :: 'e' :: []).isPrefixOf d = false := by
    intro d hd
    obtain ⟨t, rfl⟩ := tab_shape d (hds d hd).1
    simp [List.isPrefixOf]
  have hfilter : ds.filter (fun l => ('\t' :: []).isPrefixOf l) = ds :=
    List.filter_eq_self.mpr (fun d hd => (hds d hd).1)
  have hpc1 : parseChangelist (hline :: ds)
      = some ⟨hr.chnum, removeIndent ds, hr.date, hr.user, hr.client, hr.isPending⟩ := by
    rw [parseChangelist, hhead, hfilter]
  have hpcg : parseChangelist (g :: []) = none := by
    rw [parseChangelist, hg1]
  have hpc2 : parseChangelist (hline :: (ds ++ [g]))
      = some ⟨hr.chnum, removeIndent ds, hr.date, hr.user, hr.client, hr.isPending⟩ := by
    rw [parseChangelist, hhead]
    rw [List.filter_append, hfilter]
    rw [show List.filter (fun l => ('\t' :: []).isPrefixOf l) [g] = [] by
      simp [List.filter, hg2]]
    rw [List.append_nil]
  rw [parseChangesOutput, hlines, sectionArrayBy, List.foldl_cons]
  rw [show sectionStep (fun line => ('C' :: 'h' :: 'a' :: 'n' :: 'g' :: 'e' :: []).isPrefixOf line)
      (([] : List (List Str)), (none : Option (List Str))) hline
      = ([], some [hline]) by simp [sectionStep, hpre]]
  rw [List.foldl_append, sectionStep_fold_no_boundary ds hdsp [] [hline], List.foldl_cons,
    List.foldl_nil]
  by_cases hgp : ('C' :: 'h' :: 'a' :: 'n' :: 'g' :: 'e' :: []).isPrefixOf g = true
  · rw [show sectionStep (fun line => ('C' :: 'h' :: 'a' :: 'n' :: 'g' :: 'e' :: []).isPrefixOf line)
        (([] : List (List Str)), some ([hline] ++ ds)) g
        = ([[hline] ++ ds], some [g]) by simp [sectionStep, hgp]]
    simp only [List.singleton_append, List.map_cons, List.map_nil, hpc1, hpcg]
    rfl
  · rw [show sectionStep (fun line => ('C' :: 'h' :: 'a' :: 'n' :: 'g' :: 'e' :: []).isPrefixOf line)
        (([] : List (List Str)), some ([hline] ++ ds)) g
        = ([], some ([hline] ++ ds ++ [g])) by simp [sectionStep, hgp]]
    simp only [List.singleton_append, List.nil_append, List.map_cons, List.map_nil,
      List.cons_append, hpc2]
    rfl

/-- C6, witness at a concrete record and garbage line. -/
theorem parseChangesOutput_resilient_witness :
    parseChangesOutput (List.intercalate ['\n']
        ("Change 45 on 2020/02/15 by super@matto".data
          :: (["\tmy line".data] ++ ["garbage here".data])))
      = [⟨('4' :: '5' :: []), removeIndent ["\tmy line".data], some JsDate.invalid,
          "super".data, "matto".data, false⟩] :=
  parseChangesOutput_resilient _ _ _
    ⟨('4' :: '5' :: []), some JsDate.invalid, "super".data, "matto".data, false⟩
    (by rfl) (by decide) (by decide) (by decide) (by rfl) (by decide) (by decide)

/-! ### Claim theorem: C9 correlation by depot path -/

theorem eq_of_nodup_map_mem {α β : Type} {f : α → β} :
    ∀ {l : List α}, (l.map f).Nodup → ∀ {a b : α}, a ∈ l → b ∈ l → f a = f b → a = b := by
  intro l
  induction l with
  | nil =>
    intro _ a b ha
    cases ha
  | cons x t ih =>
    intro hnd a b ha hb hf
    rw [List.map_cons, List.nodup_cons] at hnd
    rcases List.mem_cons.mp ha with rfl | ha2
    · rcases List.mem_cons.mp hb with rfl | hb2
      · rfl
      · exact absurd (hf ▸ List.mem_map_of_mem f hb2) hnd.1
    · rcases List.mem_cons.mp hb with rfl | hb2
      · exact absurd (hf ▸ List.mem_map_of_mem f ha2) hnd.1
      · exact ih hnd.2 ha2 hb2 hf

theorem find?_eq_of_perm {α : Type} {l1 l2 : List α} (hp : List.Perm l1 l2) (p : α → Bool)
    (huniq : ∀ a ∈ l1, ∀ b ∈ l1, p a = true → p b = true → a = b) :
    l1.find? p = l2.find? p := by
  cases h1 : l1.find? p with
  | none =>
    cases h2 : l2.find? p with
    | none => rfl
    | some b =>
      have hb2 := List.mem_of_find?_eq_some h2
      have hpb := List.find?_some h2
      exact absurd hpb (by simpa using List.find?_eq_none.mp h1 b (hp.mem_iff.mpr hb2))
  | some a =>
    have ha1 := List.mem_of_find?_eq_some h1
    have hpa := List.find?_some h1
    cases h2 : l2.find? p with
    | none =>
      exact absurd hpa (by simpa using List.find?_eq_none.mp h2 a (hp.mem_iff.mp ha1))
    | some b =>
      have hb1 : b ∈ l1 := hp.mem_iff.mpr (List.mem_of_find?_eq_some h2)
      have hpb := List.find?_some h2
      rw [huniq b hb1 a ha1 hpb hpa]

/-- C9: the bulk file-status query answers each requested depot path with the
parsed record whose `depotFile` field equals it (or `none` when no record
has it): results are correlated by the depot path field, not by list
position, so any reordering of the parsed records with distinct `depotFile`
fields yields the same answers. -/
theorem getFstatInfoMapped_correlated (exec : List Str → Str) (paths : List Str) :
    (getFstatInfoMapped exec paths).length = paths.length ∧
    (∀ (i : Nat) (hi : i < paths.length) (hi2 : i < (getFstatInfoMapped exec paths).length),
      (∀ r : JsObj, (getFstatInfoMapped exec paths).get ⟨i, hi2⟩ = some r →
        r ∈ getFstatInfo exec paths ∧ objGet r depotFileKey = JsVal.str (paths.get ⟨i, hi⟩)) ∧
      ((getFstatInfoMapped exec paths).get ⟨i, hi2⟩ = none →
        ∀ r ∈ getFstatInfo exec paths,
          objGet r depotFileKey ≠ JsVal.str (paths.get ⟨i, hi⟩))) ∧
    (∀ other : List JsObj, List.Perm (getFstatInfo exec paths) other →
      ((getFstatInfo exec paths).map (fun r => objGet r depotFileKey)).Nodup →
      paths.map (fun file =>
          other.find? (fun fs => decide (objGet fs depotFileKey = JsVal.str file)))
        = getFstatInfoMapped exec paths) := by
  refine ⟨List.length_map _ _, ?_, ?_⟩
  · intro i hi hi2
    have hget : (getFstatInfoMapped exec paths).get ⟨i, hi2⟩
        = (getFstatInfo exec paths).find? (fun fs =>
            decide (objGet fs depotFileKey = JsVal.str (paths.get ⟨i, hi⟩))) := by
      unfold getFstatInfoMapped
      simp only [List.get_eq_getElem, List.getElem_map]
    constructor
    · intro r hr
      rw [hget] at hr
      exact ⟨List.mem_of_find?_eq_some hr, by simpa using List.find?_some hr⟩
    · intro hr r hrm
      rw [hget] at hr
      simpa using List.find?_eq_none.mp hr r hrm
  · intro other hperm hnd
    unfold getFstatInfoMapped
    apply List.map_congr_left
    intro file _
    exact (find?_eq_of_perm hperm _ (fun a ha b hb hpa hpb =>
      eq_of_nodup_map_mem hnd ha hb (by
        rw [decide_eq_true_eq] at hpa hpb
        rw [hpa, hpb]))).symm

/-- C9, witness: the length part of the correlation theorem at a concrete
executor and path list. -/
theorem getFstatInfoMapped_correlated_witness :
    (getFstatInfoMapped (fun ls => List.flatten ls) (('a' :: []) :: [])).length
      = (('a' :: []) :: []).length :=
  (getFstatInfoMapped_correlated (fun ls => List.flatten ls) (('a' :: []) :: [])).1

theorem intercalate_singleton_eq {α : Type} (sep : List α) (a : List α) :
    List.intercalate sep [a] = a := by
  simp [List.intercalate]

theorem intercalate_cons_ne {α : Type} (sep : List α) (a : List α) {l : List (List α)}
    (h : l ≠ []) : List.intercalate sep (a :: l) = a ++ sep ++ List.intercalate sep l := by
  cases l with
  | nil => exact absurd rfl h
  | cons b t =>
    rw [List.intercalate, List.intercalate, List.intersperse_cons_cons, List.flatten_cons,
      List.flatten_cons]
    simp [List.append_assoc]

theorem intercalate_append_ne {α : Type} (sep : List α) (l1 l2 : List (List α))
    (h1 : l1 ≠ []) (h2 : l2 ≠ []) :
    List.intercalate sep (l1 ++ l2)
      = List.intercalate sep l1 ++ sep ++ List.intercalate sep l2 := by
  induction l1 with
  | nil => exact absurd rfl h1
  | cons a t ih =>
    cases t with
    | nil =>
      rw [List.singleton_append, intercalate_cons_ne sep a h2, intercalate_singleton_eq]
    | cons b t2 =>
      rw [List.cons_append, intercalate_cons_ne sep a (by simp),
        intercalate_cons_ne sep a (by simp : (b :: t2) ≠ []), ih (by simp)]
      simp [List.append_assoc]

/-- Joining lines with `\n\t` equals joining the tab-prefixed lines with
`\n`. -/
theorem intercalate_tab_lines (v1 : Str) (rest : List Str) :
    List.intercalate ('\n' :: '\t' :: []) (v1 :: rest)
      = List.intercalate ['\n'] (v1 :: rest.map (fun l => '\t' :: l)) := by
  induction rest generalizing v1 with
  | nil => rfl
  | cons v2 t ih =>
    rw [intercalate_cons_ne _ v1 (by simp), List.map_cons,
      intercalate_cons_ne ['\n'] v1 (by simp), ih v2]
    cases t with
    | nil =>
      rw [List.map_nil, intercalate_singleton_eq, intercalate_singleton_eq]
      simp
    | cons v3 t2 =>
      rw [List.map_cons, intercalate_cons_ne ['\n'] ('\t' :: v2) (by simp),
        intercalate_cons_ne ['\n'] v2 (by simp)]
      simp

theorem renderSpecField_eq_lines (g : RawField) :
    renderSpecField g = List.intercalate ['\n'] (renderLines g) := by
  rcases hv : g.value with _ | ⟨v1, rest⟩
  · rw [renderSpecField, renderLines, hv]
    simp [List.intercalate]
  · rw [renderSpecField, renderLines, hv]
    simp only [List.headD_cons, List.tail_cons]
    rw [intercalate_tab_lines v1 rest]
    cases rest with
    | nil =>
      rw [List.map_nil, intercalate_singleton_eq, intercalate_singleton_eq]
    | cons v2 t =>
      rw [List.map_cons, intercalate_cons_ne ['\n'] v1 (by simp),
        intercalate_cons_ne ['\n'] (g.name ++ ':' :: '\t' :: v1) (by simp)]
      simp [List.append_assoc]

/-- Sections joined with blank lines are the `\n`-joining of the line lists
interleaved with empty lines. -/
theorem intercalate_blank_sections (Ls : List (List Str)) (hne : Ls ≠ [])
    (hnn : ∀ L ∈ Ls, L ≠ []) :
    List.intercalate ('\n' :: '\n' :: []) (Ls.map (List.intercalate ['\n']))
      = List.intercalate ['\n'] (List.intercalate [([] : Str)] Ls) := by
  induction Ls with
  | nil => exact absurd rfl hne
  | cons L t ih =>
    cases t with
    | nil =>
      rw [List.map_cons, List.map_nil, intercalate_singleton_eq, intercalate_singleton_eq]
    | cons M t2 =>
      have htne : (M :: t2) ≠ [] := by simp
      have hLne : L ≠ [] := hnn L (List.mem_cons_self _ _)
      have hInner : List.intercalate [([] : Str)] (M :: t2) ≠ [] := by
        have hMne : M ≠ [] := hnn M (List.mem_cons_of_mem _ (List.mem_cons_self _ _))
        cases t2 with
        | nil => simpa [intercalate_singleton_eq] using hMne
        | cons N t3 =>
          rw [intercalate_cons_ne _ M (by simp)]
          simp [hMne]
      rw [List.map_cons, intercalate_cons_ne _ (List.intercalate ['\n'] L) (by simp),
        ih htne (fun x hx => hnn x (List.mem_cons_of_mem _ hx)),
        intercalate_cons_ne [([] : Str)] L htne,
        intercalate_append_ne ['\n'] _ (List.intercalate [([] : Str)] (M :: t2)) ?hL hInner,
        intercalate_append_ne ['\n'] _ [([] : Str)] hLne (by simp)]
      case hL => simp [hLne]
      simp [List.append_assoc, intercalate_singleton_eq]

theorem take_len_append {α : Type} (l1 l2 : List α) : (l1 ++ l2).take l1.length = l1 := by
  induction l1 with
  | nil => rfl
  | cons a t ih => simp [ih]

theorem drop_len2_append {α : Type} (l1 l2 : List α) (c1 c2 : α) :
    (l1 ++ c1 :: c2 :: l2).drop (l1.length + 2) = l2 := by
  induction l1 with
  | nil => rfl
  | cons a t ih => simpa using ih

theorem findIdx?_append_first_go {α : Type} {p : α → Bool} {l1 : List α}
    (h1 : ∀ c ∈ l1, p c = false) {c0 : α} (hc : p c0 = true) (l2 : List α) :
    ∀ i : Nat, List.findIdx? p (l1 ++ c0 :: l2) i = some (l1.length + i) := by
  induction l1 with
  | nil =>
    intro i
    simp [List.findIdx?_cons, hc]
  | cons a t ih =>
    intro i
    rw [List.cons_append, List.findIdx?_cons, if_neg (by simp [h1 a (List.mem_cons_self a t)]),
      ih (fun c hct => h1 c (List.mem_cons_of_mem a hct)) (i + 1)]
    simp
    omega

theorem findIdx?_append_first {α : Type} {p : α → Bool} {l1 : List α}
    (h1 : ∀ c ∈ l1, p c = false) {c0 : α} (hc : p c0 = true) (l2 : List α) :
    List.findIdx? p (l1 ++ c0 :: l2) = some l1.length := by
  rw [show List.findIdx? p (l1 ++ c0 :: l2) = List.findIdx? p (l1 ++ c0 :: l2) 0 from rfl,
    findIdx?_append_first_go h1 hc l2 0]
  simp

theorem removeLeadingNewline_ne {c : Char} (t : Str) (hc : ¬(c = '\n')) :
    removeLeadingNewline (c :: t) = c :: t := by
  rw [removeLeadingNewline.eq_def]
  split
  · rename_i heq
    cases heq
    exact absurd rfl hc
  · rfl

theorem map_stripOneTab_tab (rest : List Str) :
    rest.map (stripOneTab ∘ fun l => '\t' :: l) = rest := by
  induction rest with
  | nil => rfl
  | cons a t ih =>
    rw [List.map_cons, ih]
    rfl

theorem stripOneTab_ne {c : Char} (t : Str) (hc : ¬(c = '\t')) :
    stripOneTab (c :: t) = c :: t := by
  rw [stripOneTab.eq_def]
  split
  · rename_i heq
    cases heq
    exact absurd rfl hc
  · rfl

/-- Parsing one rendered spec field recovers it. -/
theorem parseField_render (g : RawField) (hwf : wellFormedField g) :
    (⟨jsSliceTo (renderSpecField g) (jsIndexOfChar (renderSpecField g) ':'),
      parseRawField (jsSliceFrom (renderSpecField g) (jsIndexOfChar (renderSpecField g) ':' + 2))⟩
        : RawField) = g := by
  obtain ⟨hn1, hn2, hn3, hv1, hv2, hv3⟩ := hwf
  have hidx : jsIndexOfChar (renderSpecField g) ':' = (g.name.length : Int) := by
    rw [jsIndexOfChar, renderSpecField,
      findIdx?_append_first (fun c hcm => by simp [(hn2 c hcm).1]) (by simp) _]
  have hlen : g.name.length ≤ (renderSpecField g).length := by
    rw [renderSpecField]
    simp
  have hname : jsSliceTo (renderSpecField g) (jsIndexOfChar (renderSpecField g) ':') = g.name := by
    rw [hidx, jsSliceTo, if_neg (by omega)]
    have htoNat : ((g.name.length : Int)).toNat = g.name.length := rfl
    rw [htoNat, Nat.min_eq_left hlen, renderSpecField,
      show (g.name ++ ':' :: '\t' :: List.intercalate ('\n' :: '\t' :: []) g.value).take
          g.name.length
        = (g.name ++ ':' :: '\t' :: List.intercalate ('\n' :: '\t' :: []) g.value).take
          g.name.length from rfl]
    exact take_len_append g.name _
  have hval : jsSliceFrom (renderSpecField g) (jsIndexOfChar (renderSpecField g) ':' + 2)
      = List.intercalate ('\n' :: '\t' :: []) g.value := by
    rw [hidx, jsSliceFrom]
    rw [if_neg (by omega)]
    have h2 : ((g.name.length : Int) + 2).toNat = g.name.length + 2 := by omega
    rw [h2, renderSpecField, Nat.min_eq_left (by simp)]
    exact drop_len2_append g.name _ ':' '\t'
  rcases hv : g.value with _ | ⟨v1, rest⟩
  · rw [hv] at hv1
    simp at hv1
  · rw [hv] at hv1 hv2
    simp only [List.headD_cons] at hv1 hv2
    obtain ⟨c1, t1, hc1⟩ : ∃ c1 t1, v1 = c1 :: t1 := by
      cases v1 with
      | nil => exact absurd rfl hv1
      | cons c1 t1 => exact ⟨c1, t1, rfl⟩
    have hc1tab : ¬(c1 = '\t') := by
      intro he
      rw [hc1, he] at hv2
      simp [List.isPrefixOf] at hv2
    have hc1nl : ¬(c1 = '\n') := by
      intro he
      have := hv3 v1 (by rw [hv]; exact List.mem_cons_self _ _)
      rw [hc1, he] at this
      exact this (List.mem_cons_self _ _)
    have hparse : parseRawField (List.intercalate ('\n' :: '\t' :: []) (v1 :: rest))
        = v1 :: rest := by
      rw [parseRawField]
      have hj : List.intercalate ('\n' :: '\t' :: []) (v1 :: rest)
          = List.intercalate ['\n'] (v1 :: rest.map (fun l => '\t' :: l)) :=
        intercalate_tab_lines v1 rest
      have hjshape : ∃ J, List.intercalate ('\n' :: '\t' :: []) (v1 :: rest) = c1 :: J := by
        cases rest with
        | nil => exact ⟨t1, by rw [intercalate_singleton_eq, hc1]⟩
        | cons v2 t2 =>
          refine ⟨t1 ++ ('\n' :: '\t' :: []) ++ List.intercalate ('\n' :: '\t' :: []) (v2 :: t2),
            ?_⟩
          rw [intercalate_cons_ne _ v1 (by simp), hc1]
          simp
      obtain ⟨J, hJ⟩ := hjshape
      rw [hJ, removeLeadingNewline_ne J hc1nl, ← hJ, hj, splitIntoLines,
        List.splitOn_intercalate (v1 :: rest.map (fun l => '\t' :: l)) '\n' ?nl (by simp)]
      case nl =>
        intro l hl
        rcases List.mem_cons.mp hl with rfl | hl2
        · exact hv3 l (by rw [hv]; exact List.mem_cons_self _ _)
        · rw [List.mem_map] at hl2
          obtain ⟨x, hx, rfl⟩ := hl2
          intro hmem
          rcases List.mem_cons.mp hmem with he | hmem2
          · cases he
          · exact hv3 x (by rw [hv]; exact List.mem_cons_of_mem _ hx) hmem2
      rw [removeIndent, List.map_cons, hc1, stripOneTab_ne t1 hc1tab, ← hc1, List.map_map,
        map_stripOneTab_tab]
    rw [hname, hval, hv, hparse, ← hv]

theorem parseRawFields_render (fs : List RawField) (hwf : ∀ g ∈ fs, wellFormedField g) :
    parseRawFields (fs.map renderSpecField) = fs := by
  induction fs with
  | nil => rfl
  | cons g t ih =>
    show (⟨jsSliceTo (renderSpecField g) (jsIndexOfChar (renderSpecField g) ':'),
      parseRawField (jsSliceFrom (renderSpecField g)
        (jsIndexOfChar (renderSpecField g) ':' + 2))⟩ : RawField)
        :: parseRawFields (t.map renderSpecField) = g :: t
    rw [parseField_render g (hwf g (List.mem_cons_self _ _)),
      ih (fun x hx => hwf x (List.mem_cons_of_mem _ hx))]

theorem instBEq_listChar :
    (List.instBEq : BEq (List Char)) = (instBEqOfDecidableEq : BEq (List Char)) := by
  refine congrArg BEq.mk ?_
  funext a b
  by_cases hab : a = b
  · subst hab
    show (a == a) = decide (a = a)
    rw [beq_self_eq_true]
    exact (decide_eq_true rfl).symm
  · show (a == b) = decide (a = b)
    rw [beq_eq_false_iff_ne.mpr hab, decide_eq_false hab]

theorem splitOn_listChar_inst (x : List Char) (l : List (List Char)) :
    @List.splitOn (List Char) List.instBEq x l
      = @List.splitOn (List Char) (instBEqOfDecidableEq : BEq (List Char)) x l := by
  rw [instBEq_listChar]

theorem intercalate_ne_nil {α : Type} (x : List α) {ls : List (List α)} (hne : ls ≠ [])
    (hnn : ∀ L ∈ ls, L ≠ []) : List.intercalate x ls ≠ [] := by
  cases ls with
  | nil => exact absurd rfl hne
  | cons L t =>
    cases t with
    | nil => simpa [intercalate_singleton_eq] using hnn L (List.mem_cons_self _ _)
    | cons M t2 =>
      rw [intercalate_cons_ne _ L (by simp)]
      simp [hnn L (List.mem_cons_self _ _)]

theorem mem_intercalate_sep {α : Type} (x : α) (ls : List (List α)) (l : α)
    (h : l ∈ List.intercalate [x] ls) : (∃ L ∈ ls, l ∈ L) ∨ l = x := by
  induction ls with
  | nil => simp [List.intercalate] at h
  | cons L t ih =>
    cases t with
    | nil =>
      rw [intercalate_singleton_eq] at h
      exact Or.inl ⟨L, List.mem_cons_self _ _, h⟩
    | cons M t2 =>
      rw [intercalate_cons_ne _ L (by simp)] at h
      rcases List.mem_append.mp h with h1 | h2
      · rcases List.mem_append.mp h1 with h3 | h4
        · exact Or.inl ⟨L, List.mem_cons_self _ _, h3⟩
        · exact Or.inr (by simpa using h4)
      · rcases ih h2 with ⟨K, hK, hlK⟩ | he
        · exact Or.inl ⟨K, List.mem_cons_of_mem _ hK, hlK⟩
        · exact Or.inr he

theorem infix_of_mem_intercalate {α : Type} (sep : List α) {x : List α} {ls : List (List α)}
    (h : x ∈ ls) : x <:+: List.intercalate sep ls := by
  induction ls with
  | nil => exact absurd h (List.not_mem_nil x)
  | cons L t ih =>
    rcases List.mem_cons.mp h with rfl | h2
    · cases t with
      | nil =>
        rw [intercalate_singleton_eq]
      | cons M t2 =>
        rw [intercalate_cons_ne _ x (by simp), List.append_assoc]
        exact (List.prefix_append x _).isInfix
    · cases t with
      | nil => simp at h2
      | cons M t2 =>
        rw [intercalate_cons_ne _ L (by simp)]
        exact (ih h2).trans (List.suffix_append (L ++ sep) _).isInfix

theorem renderLines_props (g : RawField) (hwf : wellFormedField g) :
    ∀ l ∈ renderLines g, l ≠ [] ∧ '\n' ∉ l := by
  obtain ⟨hn1, hn2, hn3, hv1, hv2, hv3⟩ := hwf
  intro l hl
  rw [renderLines] at hl
  rcases List.mem_cons.mp hl with rfl | hl2
  · refine ⟨by simp, ?_⟩
    intro hmem
    rcases List.mem_append.mp hmem with hmn | hmr
    · exact (hn2 '\n' hmn).2 rfl
    · rcases List.mem_cons.mp hmr with he | hmr2
      · exact absurd he (by decide)
      · rcases List.mem_cons.mp hmr2 with he2 | hmr3
        · exact absurd he2 (by decide)
        · rcases hvv : g.value with _ | ⟨v1, rest⟩
          · rw [hvv] at hmr3
            simp at hmr3
          · rw [hvv] at hmr3
            simp only [List.headD_cons] at hmr3
            exact hv3 v1 (by rw [hvv]; exact List.mem_cons_self _ _) hmr3
  · rw [List.mem_map] at hl2
    obtain ⟨y, hy, rfl⟩ := hl2
    refine ⟨by simp, ?_⟩
    intro hmem
    rcases List.mem_cons.mp hmem with he | hm2
    · exact absurd he (by decide)
    · exact hv3 y (List.mem_of_mem_tail hy) hm2

/-- Parsing the blank-line-joined rendering of well-formed raw fields
recovers them exactly. -/
theorem parseSpecOutput_render (fs : List RawField) (hne : fs ≠ [])
    (hwf : ∀ g ∈ fs, wellFormedField g) :
    parseSpecOutput (List.intercalate ('\n' :: '\n' :: []) (fs.map renderSpecField)) = fs := by
  have hmap : fs.map renderSpecField = (fs.map renderLines).map (List.intercalate ['\n']) := by
    rw [List.map_map]
    exact List.map_congr_left (fun g _ => renderSpecField_eq_lines g)
  have hLs_ne : fs.map renderLines ≠ [] := by simpa using hne
  have hLs_nn : ∀ L ∈ fs.map renderLines, L ≠ [] := by
    intro L hL
    rw [List.mem_map] at hL
    obtain ⟨g, _, rfl⟩ := hL
    rw [renderLines]
    simp
  have hflat_nn : ∀ l ∈ List.intercalate [([] : Str)] (fs.map renderLines), '\n' ∉ l := by
    intro l hl
    rcases mem_intercalate_sep ([] : Str) (fs.map renderLines) l hl with ⟨L, hL, hlL⟩ | rfl
    · rw [List.mem_map] at hL
      obtain ⟨g, hg, rfl⟩ := hL
      exact ((renderLines_props g (hwf g hg)) l hlL).2
    · simp
  have hflat_ne : List.intercalate [([] : Str)] (fs.map renderLines) ≠ [] :=
    intercalate_ne_nil _ hLs_ne hLs_nn
  have hnoemp : ∀ L ∈ fs.map renderLines, ([] : Str) ∉ L := by
    intro L hL hmem
    rw [List.mem_map] at hL
    obtain ⟨g, hg, rfl⟩ := hL
    exact ((renderLines_props g (hwf g hg)) [] hmem).1 rfl
  have hT : List.intercalate ('\n' :: '\n' :: []) (fs.map renderSpecField)
      = List.intercalate ['\n'] (List.intercalate [([] : Str)] (fs.map renderLines)) := by
    rw [hmap]
    exact intercalate_blank_sections (fs.map renderLines) hLs_ne hLs_nn
  have hsec : splitIntoSections
      (List.intercalate ('\n' :: '\n' :: []) (fs.map renderSpecField))
        = fs.map renderSpecField := by
    rw [splitIntoSections, hT,
      List.splitOn_intercalate (List.intercalate [([] : Str)] (fs.map renderLines)) '\n'
        hflat_nn hflat_ne,
      splitOn_listChar_inst,
      List.splitOn_intercalate (fs.map renderLines) ([] : Str) hnoemp hLs_ne]
    exact hmap.symm
  have hex : excludeNonFields (fs.map renderSpecField) = fs.map renderSpecField := by
    rw [excludeNonFields, List.filter_eq_self]
    intro a ha
    rw [List.mem_map] at ha
    obtain ⟨g, hg, rfl⟩ := ha
    obtain ⟨hn1, hn2, hn3, h4, h5, h6⟩ := hwf g hg
    rcases hnm : g.name with _ | ⟨c, t⟩
    · exact absurd hnm hn1
    · rw [hnm] at hn3
      rw [renderSpecField, hnm, List.cons_append]
      have hc : (('#' : Char) == c) = false := by
        simpa [List.isPrefixOf] using hn3
      simp [List.isPrefixOf, hc]
  rw [parseSpecOutput, hsec, hex, parseRawFields_render fs hwf]

/-! ### Claim theorems: the change-spec codec (C5) -/

theorem toLower_ne_F (c : Char) : ¬ Char.toLower c = 'F' := by
  intro h
  rw [Char.toLower] at h
  split at h
  · rename_i hc
    simp only [ge_iff_le, Bool.and_eq_true, decide_eq_true_eq] at hc
    have hv : (c.toNat + 32).isValidChar := Or.inl (by omega)
    have hval : (Char.ofNat (c.toNat + 32)).toNat = c.toNat + 32 := by
      rw [Char.ofNat, dif_pos hv]
      rfl
    have h70 : c.toNat + 32 = 70 := by
      rw [← hval, h]
      rfl
    omega
  · rename_i hc
    subst h
    simp at hc

/-- `toLowerCase` never produces the capital-`F` property name `rawFields`,
so the serializer's lookup `spec[field.name.toLowerCase()]` can never hit the
`rawFields` property. -/
theorem jsToLower_ne_rawFields (s : Str) :
    jsToLower s ≠ ('r' :: 'a' :: 'w' :: 'F' :: 'i' :: 'e' :: 'l' :: 'd' :: 's' :: []) := by
  intro h
  have hmem : 'F' ∈ jsToLower s := by
    rw [h]
    decide
  rw [jsToLower, List.mem_map] at hmem
  obtain ⟨c, _, hc⟩ := hmem
  exact toLower_ne_F c hc

/-- C5, counterexample: the text `Change:\t42\n\nCHANGE:\tfoo` contains the
named field `CHANGE`, which the codec does not model (the semantically-known
fields are matched case-sensitively, so only `Change` is modeled); parsing
produces both raw fields, but serializing the untouched spec yields only
`Change:\t42\n\n` — the `CHANGE` field is silently destroyed, because the
serializer drops every raw field whose lower-cased name (`change`) selects a
truthy property of the spec object, and the modeled `Change` field made
`spec.change` truthy. -/
theorem inputChange_case_collision_cex :
    parseSpecOutput
        ('C' :: 'h' :: 'a' :: 'n' :: 'g' :: 'e' :: ':' :: '\t' :: '4' :: '2' ::
          '\n' :: '\n' :: 'C' :: 'H' :: 'A' :: 'N' :: 'G' :: 'E' :: ':' :: '\t' ::
          'f' :: 'o' :: 'o' :: [])
      = [⟨('C' :: 'h' :: 'a' :: 'n' :: 'g' :: 'e' :: []), [('4' :: '2' :: [])]⟩,
         ⟨('C' :: 'H' :: 'A' :: 'N' :: 'G' :: 'E' :: []), [('f' :: 'o' :: 'o' :: [])]⟩] ∧
    inputChangeInput (parseChangeSpec
        ('C' :: 'h' :: 'a' :: 'n' :: 'g' :: 'e' :: ':' :: '\t' :: '4' :: '2' ::
          '\n' :: '\n' :: 'C' :: 'H' :: 'A' :: 'N' :: 'G' :: 'E' :: ':' :: '\t' ::
          'f' :: 'o' :: 'o' :: []))
      = ('C' :: 'h' :: 'a' :: 'n' :: 'g' :: 'e' :: ':' :: '\t' :: '4' :: '2' ::
          '\n' :: '\n' :: []) ∧
    ¬ (renderSpecField ⟨('C' :: 'H' :: 'A' :: 'N' :: 'G' :: 'E' :: []),
          [('f' :: 'o' :: 'o' :: [])]⟩ <:+:
        inputChangeInput (parseChangeSpec
          ('C' :: 'h' :: 'a' :: 'n' :: 'g' :: 'e' :: ':' :: '\t' :: '4' :: '2' ::
            '\n' :: '\n' :: 'C' :: 'H' :: 'A' :: 'N' :: 'G' :: 'E' :: ':' :: '\t' ::
            'f' :: 'o' :: 'o' :: []))) := by
  refine ⟨by decide, by decide, by decide⟩

/-- C5, amended: for every nonempty list of well-formed raw fields, any field
of the list whose lower-cased name is not one of `change`, `description`,
`files` — the lower-casings of the case-sensitively modeled field names — is
reproduced verbatim (name, colon, tab-indented value lines) in the output of
serializing the spec parsed from the rendered text.  In particular a custom
field named `Rawfields` is preserved: the spec object's list property is
`rawFields` with a capital `F`, which no lower-cased lookup can select. -/
theorem inputChange_preserves_unmodeled (fs : List RawField) (g : RawField)
    (hne : fs ≠ []) (hwf : ∀ f ∈ fs, wellFormedField f) (hg : g ∈ fs)
    (h1 : jsToLower g.name ≠ ('c' :: 'h' :: 'a' :: 'n' :: 'g' :: 'e' :: []))
    (h2 : jsToLower g.name
      ≠ ('d' :: 'e' :: 's' :: 'c' :: 'r' :: 'i' :: 'p' :: 't' :: 'i' :: 'o' :: 'n' :: []))
    (h3 : jsToLower g.name ≠ ('f' :: 'i' :: 'l' :: 'e' :: 's' :: [])) :
    renderSpecField g <:+:
      inputChangeInput (parseChangeSpec
        (List.intercalate ('\n' :: '\n' :: []) (fs.map renderSpecField))) := by
  rw [parseChangeSpec, parseSpecOutput_render fs hne hwf, inputChangeInput]
  have hkeep : (!specFieldTruthy (mapToChangeFields fs) (jsToLower g.name)) = true := by
    rw [specFieldTruthy, if_neg h1, if_neg h2, if_neg h3,
      if_neg (jsToLower_ne_rawFields g.name)]
    rfl
  have hmem : g ∈ (getDefinedSpecFields (mapToChangeFields fs)).append
      ((mapToChangeFields fs).rawFields.filter (fun field =>
        !specFieldTruthy (mapToChangeFields fs) (jsToLower field.name))) := by
    refine List.mem_append.mpr (Or.inr ?_)
    exact List.mem_filter.mpr ⟨hg, hkeep⟩
  have hmemr : renderSpecField g ∈ ((getDefinedSpecFields (mapToChangeFields fs)).append
      ((mapToChangeFields fs).rawFields.filter (fun field =>
        !specFieldTruthy (mapToChangeFields fs) (jsToLower field.name)))).map
      renderSpecField :=
    List.mem_map_of_mem renderSpecField hmem
  exact (infix_of_mem_intercalate ('\n' :: '\n' :: []) hmemr).trans
    (List.prefix_append _ _).isInfix

/-- C5, witness: the amended theorem at the single custom field
`Rawfields:\tfoo` — the very field name the spec's own property list makes
delicate is preserved. -/
theorem inputChange_preserves_unmodeled_witness :
    renderSpecField (⟨('R' :: 'a' :: 'w' :: 'f' :: 'i' :: 'e' :: 'l' :: 'd' :: 's' :: []),
        [('f' :: 'o' :: 'o' :: [])]⟩ : RawField) <:+:
      inputChangeInput (parseChangeSpec
        (List.intercalate ('\n' :: '\n' :: [])
          (([⟨('R' :: 'a' :: 'w' :: 'f' :: 'i' :: 'e' :: 'l' :: 'd' :: 's' :: []),
              [('f' :: 'o' :: 'o' :: [])]⟩] : List RawField).map renderSpecField))) :=
  inputChange_preserves_unmodeled
    [⟨('R' :: 'a' :: 'w' :: 'f' :: 'i' :: 'e' :: 'l' :: 'd' :: 's' :: []),
      [('f' :: 'o' :: 'o' :: [])]⟩]
    ⟨('R' :: 'a' :: 'w' :: 'f' :: 'i' :: 'e' :: 'l' :: 'd' :: 's' :: []),
      [('f' :: 'o' :: 'o' :: [])]⟩
    (by decide) (by decide) (by decide) (by decide) (by decide) (by decide)

end PerforceSpec
